import Mathlib

/-!
Shallow embedding of `src/server.js`, a crash-resilient chunk-based
deduplicating file store.  Byte buffers are `List Nat`, JavaScript strings
are `List Char`.  The SHA-256 hasher is modelled as a parameter
`H : Bytes → Str`; its assumed properties (injectivity / collision freedom,
hex output, hence nonempty and free of the `'-'` separator) are bundled in
`GoodHash`.  A concrete executable instance `hashFn` is provided for
evaluating the model on concrete inputs.
-/

set_option maxHeartbeats 1000000
set_option maxRecDepth 100000

abbrev Byte := Nat
abbrev Bytes := List Nat
abbrev Str := List Char

/-- Association-list lookup, modelling `Map.get` / first-match semantics. -/
def lookupA {β : Type} : List (Str × β) → Str → Option β
  | [], _ => none
  | (k, v) :: t, x => if k = x then some v else lookupA t x

/-- Association-list update, modelling `Map.set`: replace the entry in place
if the key is present, otherwise append at the end (JS insertion order). -/
def insertA {β : Type} : List (Str × β) → Str → β → List (Str × β)
  | [], k, v => [(k, v)]
  | (k0, v0) :: t, k, v =>
    if k0 = k then (k, v) :: t else (k0, v0) :: insertA t k v

/-- `Set.add` on the signature set: append if absent (JS insertion order). -/
def addSig (l : List Str) (s : Str) : List Str :=
  if s ∈ l then l else l ++ [s]

/-- `path.basename` (POSIX), as used by `safeName` in `server.js:62-65`:
drop trailing separators, then keep the final separator-free segment. -/
def safeName (p : Str) : Str :=
  ((p.reverse.dropWhile (fun c => c = '/')).takeWhile (fun c => c ≠ '/')).reverse

/-- `hashes.join('-')` from `server.js:83`. -/
def joinDash : List Str → Str
  | [] => []
  | s :: t => s ++ (t.map (fun x => '-' :: x)).flatten

/-- Fuel-driven worker for the chunking loop of `chunkAndHash`
(`server.js:52-60`): slice off `S` bytes at a time. -/
def chunkSplitGo (S : Nat) : Nat → Bytes → List Bytes
  | 0, _ => []
  | _, [] => []
  | fuel + 1, c :: rest =>
    (c :: rest).take S :: chunkSplitGo S fuel ((c :: rest).drop S)

/-- The chunker: split a buffer into consecutive slices of length `S`
(the final slice may be shorter).  `b.length` is enough fuel whenever
`0 < S`, since every round consumes at least one byte. -/
def chunkSplit (S : Nat) (b : Bytes) : List Bytes :=
  chunkSplitGo S b.length b

/-- `CHUNK_SIZE` from `server.js:33` (the comment there claims 1 MB). -/
def CHUNK_SIZE : Nat := 10 * 10

/-- `chunkAndHash` (`server.js:52-60`): ordered list of (digest, slice). -/
def chunkAndHash (H : Bytes → Str) (S : Nat) (b : Bytes) : List (Str × Bytes) :=
  (chunkSplit S b).map (fun c => (H c, c))

/-- The ordered digest sequence of a buffer. -/
def hashesOf (H : Bytes → Str) (S : Nat) (b : Bytes) : List Str :=
  (chunkSplit S b).map H

/-- The whole-file signature: digests joined with `'-'` (`server.js:83`). -/
def sigOf (H : Bytes → Str) (S : Nat) (b : Bytes) : Str :=
  joinDash (hashesOf H S b)

/-- Value stored in `fileMeta` (`server.js:34`). -/
structure Meta where
  signature : Str
  chunkHashes : List Str
deriving DecidableEq

/-- A parsed manifest record (`saveManifest`, `server.js:67-71`). -/
structure Manifest where
  filename : Str
  signature : Str
  chunkHashes : List Str
deriving DecidableEq

/-- A durable manifest file: either parseable JSON or corrupt bytes. -/
inductive MRec where
  | ok (m : Manifest)
  | bad (raw : Str)
deriving DecidableEq

/-- The whole system state: the two in-memory indexes (`fileMeta`,
`fileSignatures`) plus the two durable directories (`chunks/`,
`manifests/`), each modelled as an association list. -/
structure Sys where
  fileMeta : List (Str × Meta)
  fileSignatures : List Str
  chunkStore : List (Str × Bytes)
  manifestStore : List (Str × MRec)
deriving DecidableEq

/-- Fresh process with empty directories. -/
def sysInit : Sys := ⟨[], [], [], []⟩

/-- The `.json` manifest filename suffix. -/
def jsonExt : Str := ['.', 'j', 's', 'o', 'n']

/-- The default name substituted for a falsy `originalname` (`server.js:80`). -/
def unnamedStr : Str := ['u', 'n', 'n', 'a', 'm', 'e', 'd']

/-- `safeName(req.file.originalname || 'unnamed')` (`server.js:80`):
an empty supplied name is replaced by `'unnamed'` before sanitizing. -/
def effName (name : Str) : Str :=
  safeName (if name = [] then unnamedStr else name)

/-- Response of `POST /upload` (`server.js:102-108`); `wroteSomething`
selects between the two messages and is the `newChunksWritten` flag. -/
structure UploadResp where
  wroteSomething : Bool
  filename : Str
  chunkCount : Nat
deriving DecidableEq

/-- The chunk-writing loop (`server.js:88-94`): for each (digest, data)
pair, write the blob only if no blob exists for that digest yet, and track
whether anything was written. -/
def writeChunks : List (Str × Bytes) → List (Str × Bytes) → Bool →
    List (Str × Bytes) × Bool
  | store, [], w => (store, w)
  | store, (h, d) :: t, w =>
    match lookupA store h with
    | some _ => writeChunks store t w
    | none => writeChunks (insertA store h d) t true

/-- The chunk-writing loop where `fs.writeFileSync` may throw: `fl h = true`
means the write of blob `h` fails.  On failure the exception aborts the loop
and the partially updated store is what remains on disk. -/
def writeChunksF (fl : Str → Bool) : List (Str × Bytes) → List (Str × Bytes) → Bool →
    Except (List (Str × Bytes)) (List (Str × Bytes) × Bool)
  | store, [], w => .ok (store, w)
  | store, (h, d) :: t, w =>
    match lookupA store h with
    | some _ => writeChunksF fl store t w
    | none =>
      if fl h then .error store
      else writeChunksF fl (insertA store h d) t true

/-- `POST /upload` (`server.js:76-109`), chunk size taken as a parameter:
sanitize the name, chunk and hash the buffer, build the signature; if the
signature is new, write the missing chunk blobs and record the signature;
always overwrite the in-memory meta entry and the durable manifest. -/
def uploadOpS (H : Bytes → Str) (S : Nat) (s : Sys) (name : Str) (buffer : Bytes) :
    Sys × UploadResp :=
  let originalName := effName name
  let hashes := hashesOf H S buffer
  let signature := joinDash hashes
  let wr :=
    if signature ∈ s.fileSignatures then (s.chunkStore, s.fileSignatures, false)
    else
      let r := writeChunks s.chunkStore (chunkAndHash H S buffer) false
      (r.1, addSig s.fileSignatures signature, r.2)
  ({ fileMeta := insertA s.fileMeta originalName ⟨signature, hashes⟩,
     fileSignatures := wr.2.1,
     chunkStore := wr.1,
     manifestStore := insertA s.manifestStore (originalName ++ jsonExt)
       (.ok ⟨originalName, signature, hashes⟩) },
   ⟨wr.2.2, originalName, hashes.length⟩)

/-- `POST /upload` at the configured `CHUNK_SIZE`. -/
def uploadOp (H : Bytes → Str) (s : Sys) (name : Str) (buffer : Bytes) :
    Sys × UploadResp :=
  uploadOpS H CHUNK_SIZE s name buffer

/-- `POST /upload` where chunk-blob writes may throw.  A throw propagates
out of the handler before the signature, the meta entry or the manifest is
recorded; only the already-written blobs remain (`server.js:87-100`). -/
def uploadFS (H : Bytes → Str) (S : Nat) (fl : Str → Bool) (s : Sys)
    (name : Str) (buffer : Bytes) : Except Sys (Sys × UploadResp) :=
  let originalName := effName name
  let hashes := hashesOf H S buffer
  let signature := joinDash hashes
  if signature ∈ s.fileSignatures then
    .ok ({ s with
            fileMeta := insertA s.fileMeta originalName ⟨signature, hashes⟩,
            manifestStore := insertA s.manifestStore (originalName ++ jsonExt)
              (.ok ⟨originalName, signature, hashes⟩) },
         ⟨false, originalName, hashes.length⟩)
  else
    match writeChunksF fl s.chunkStore (chunkAndHash H S buffer) false with
    | .error st => .error { s with chunkStore := st }
    | .ok r =>
      .ok ({ fileMeta := insertA s.fileMeta originalName ⟨signature, hashes⟩,
             fileSignatures := addSig s.fileSignatures signature,
             chunkStore := r.1,
             manifestStore := insertA s.manifestStore (originalName ++ jsonExt)
               (.ok ⟨originalName, signature, hashes⟩) },
           ⟨r.2, originalName, hashes.length⟩)

/-- Fallible upload at the configured `CHUNK_SIZE`. -/
def uploadF (H : Bytes → Str) (fl : Str → Bool) (s : Sys) (name : Str)
    (buffer : Bytes) : Except Sys (Sys × UploadResp) :=
  uploadFS H CHUNK_SIZE fl s name buffer

/-- Result of `GET /download/:filename` (`server.js:114-135`): 404 for an
unknown name, 500 when a referenced blob is missing, else the full bytes. -/
inductive DlResult where
  | notFound
  | corrupt (missing : Str)
  | ok (content : Bytes)
deriving DecidableEq

/-- The blob-reading loop of the download handler (`server.js:120-124`),
threading the (unmodified) state through each read: the first missing
digest throws, otherwise all blob contents are collected in order. -/
def readLoop (s : Sys) : List Str → Sys × Except Str (List Bytes)
  | [] => (s, .ok [])
  | h :: t =>
    match lookupA s.chunkStore h with
    | none => (s, .error h)
    | some b =>
      match readLoop s t with
      | (s2, .error h2) => (s2, .error h2)
      | (s2, .ok bl) => (s2, .ok (b :: bl))

/-- `GET /download/:filename` (`server.js:114-135`) as a state transition:
sanitize, look up the meta entry, read every referenced blob, concatenate. -/
def downloadSt (s : Sys) (name : Str) : Sys × DlResult :=
  match lookupA s.fileMeta (safeName name) with
  | none => (s, .notFound)
  | some mt =>
    match readLoop s mt.chunkHashes with
    | (s2, .error h) => (s2, .corrupt h)
    | (s2, .ok bl) => (s2, .ok bl.flatten)

/-- The download result alone. -/
def download (s : Sys) (name : Str) : DlResult := (downloadSt s name).2

/-- `GET /list` (`server.js:140`). -/
def listFilenames (s : Sys) : List Str := s.fileMeta.map Prod.fst

/-- `file.endsWith('.json')` (`server.js:163`). -/
def endsJson (s : Str) : Bool := decide (s.reverse.take 5 = jsonExt.reverse)

/-- One iteration of the bootstrap loop (`server.js:162-170`): skip files
not ending in `.json` and corrupt records; insert parseable ones into the
rebuilt `fileMeta` and add their signature to the rebuilt set. -/
def bootStep (acc : List (Str × Meta) × List Str) (k : Str) (r : MRec) :
    List (Str × Meta) × List Str :=
  if endsJson k then
    match r with
    | .ok m => (insertA acc.1 m.filename ⟨m.signature, m.chunkHashes⟩,
                addSig acc.2 m.signature)
    | .bad _ => acc
  else acc

/-- The bootstrap fold over all durable manifest files. -/
def bootAccum : List (Str × MRec) → List (Str × Meta) × List Str →
    List (Str × Meta) × List Str
  | [], acc => acc
  | (k, r) :: t, acc => bootAccum t (bootStep acc k r)

/-- `fileMeta` as rebuilt by `bootstrap()` from the manifest directory. -/
def bootMetaOf (ms : List (Str × MRec)) : List (Str × Meta) :=
  (bootAccum ms ([], [])).1

/-- `fileSignatures` as rebuilt by `bootstrap()`. -/
def bootSigsOf (ms : List (Str × MRec)) : List Str :=
  (bootAccum ms ([], [])).2

/-- Process restart: the in-memory maps start empty and `bootstrap()`
rehydrates them from the durable manifests; the disk survives unchanged. -/
def restartS (s : Sys) : Sys :=
  { fileMeta := bootMetaOf s.manifestStore,
    fileSignatures := bootSigsOf s.manifestStore,
    chunkStore := s.chunkStore,
    manifestStore := s.manifestStore }

/-- The meta entry the bootstrap fold ends up associating to inner filename
`x`: the last parseable `.json` record whose `filename` field is `x`. -/
def recMeta (x : Str) (k : Str) (r : MRec) : Option Meta :=
  if endsJson k then
    match r with
    | .ok m =>
      if m.filename = x then some ⟨m.signature, m.chunkHashes⟩ else none
    | .bad _ => none
  else none

/-- Last-match lookup over the manifest directory by inner filename. -/
def findInner : List (Str × MRec) → Str → Option Meta
  | [], _ => none
  | (k, r) :: t, x =>
    match findInner t x with
    | some v => some v
    | none => recMeta x k r

/-- States reachable by the server: the fresh state, successful uploads,
uploads aborted by a chunk-write failure, and process restarts. -/
inductive Reach (H : Bytes → Str) : Sys → Prop where
  | init : Reach H sysInit
  | up (s : Sys) (n : Str) (b : Bytes) : Reach H s → Reach H (uploadOp H s n b).1
  | upFail (s s2 : Sys) (fl : Str → Bool) (n : Str) (b : Bytes) :
      Reach H s → uploadF H fl s n b = .error s2 → Reach H s2
  | restart (s : Sys) : Reach H s → Reach H (restartS s)

/-- The properties `server.js` relies on for its SHA-256 hex digests:
collision freedom, and hex output (so digests are nonempty and never
contain the `'-'` signature separator). -/
structure GoodHash (H : Bytes → Str) : Prop where
  inj : Function.Injective H
  ne : ∀ b, H b ≠ []
  nd : ∀ b, '-' ∉ H b

/-- A prefix-free unary byte encoding used to build `hashFn`. -/
def encNat (n : Nat) : Str := List.replicate n 'a' ++ ['b']

/-- A concrete executable hash satisfying `GoodHash`, for evaluating the
model on concrete inputs. -/
def hashFn (bs : Bytes) : Str := 'c' :: (bs.map encNat).flatten

/-- Digest lists are well formed and fully backed by stored blobs. -/
def HsOK (store : List (Str × Bytes)) (hs : List Str) : Prop :=
  ∀ h ∈ hs, h ≠ [] ∧ '-' ∉ h ∧ ∃ b, lookupA store h = some b

/-- A recorded signature decomposes into a fully stored digest list. -/
def SigOK (store : List (Str × Bytes)) (sig : Str) : Prop :=
  ∃ hs, sig = joinDash hs ∧ HsOK store hs

/-- A meta entry is internally consistent and fully backed by blobs. -/
def MetaOK (store : List (Str × Bytes)) (mt : Meta) : Prop :=
  mt.signature = joinDash mt.chunkHashes ∧ HsOK store mt.chunkHashes

/-- The system invariant maintained by every reachable state. -/
structure SysInv (H : Bytes → Str) (s : Sys) : Prop where
  storeHash : ∀ h b, lookupA s.chunkStore h = some b → H b = h
  sigOk : ∀ sig ∈ s.fileSignatures, SigOK s.chunkStore sig
  metaOk : ∀ n mt, lookupA s.fileMeta n = some mt → MetaOK s.chunkStore mt
  manOk : ∀ k r, (k, r) ∈ s.manifestStore →
    ∃ m, r = .ok m ∧ k = m.filename ++ jsonExt ∧ '/' ∉ m.filename ∧
      MetaOK s.chunkStore ⟨m.signature, m.chunkHashes⟩
  manKeys : (s.manifestStore.map Prod.fst).Nodup
  metaBoot : ∀ x, lookupA s.fileMeta x = findInner s.manifestStore x
  metaSlash : ∀ n mt, lookupA s.fileMeta n = some mt → '/' ∉ n

/-! ### Association-list and set lemmas -/

theorem lookupA_insertA {β : Type} (l : List (Str × β)) (k x : Str) (v : β) :
    lookupA (insertA l k v) x = if x = k then some v else lookupA l x := by
  induction l with
  | nil =>
    simp only [insertA, lookupA]
    by_cases h : x = k
    · subst h; simp
    · rw [if_neg (Ne.symm h), if_neg h]
  | cons p t ih =>
    obtain ⟨k0, v0⟩ := p
    simp only [insertA]
    by_cases hk : k0 = k
    · subst hk
      simp only [if_pos rfl, lookupA]
      by_cases hx : x = k0
      · subst hx; simp
      · rw [if_neg (Ne.symm hx), if_neg hx, if_neg (Ne.symm hx)]
    · rw [if_neg hk]
      simp only [lookupA]
      by_cases h0 : k0 = x
      · subst h0
        simp [hk]
      · rw [if_neg h0, if_neg h0, ih]

theorem mem_insertA {β : Type} {l : List (Str × β)} {k : Str} {v : β}
    {p : Str × β} (hp : p ∈ insertA l k v) : p ∈ l ∨ p = (k, v) := by
  induction l with
  | nil => simp [insertA] at hp; exact Or.inr hp
  | cons q t ih =>
    obtain ⟨k0, v0⟩ := q
    by_cases hk : k0 = k
    · simp [insertA, hk] at hp
      rcases hp with h | h
      · exact Or.inr (by simp [h])
      · exact Or.inl (by simp [h])
    · simp [insertA, hk] at hp
      rcases hp with h | h
      · exact Or.inl (by simp [h])
      · rcases ih h with h2 | h2
        · exact Or.inl (by simp [h2])
        · exact Or.inr h2

theorem lookupA_mem {β : Type} {l : List (Str × β)} {x : Str} {v : β}
    (h : lookupA l x = some v) : (x, v) ∈ l := by
  induction l with
  | nil => simp [lookupA] at h
  | cons p t ih =>
    obtain ⟨k0, v0⟩ := p
    by_cases hk : k0 = x
    · simp [lookupA, hk] at h
      simp [hk, h]
    · simp [lookupA, hk] at h
      exact List.mem_cons_of_mem _ (ih h)

theorem keys_lookup {β : Type} {l : List (Str × β)} {x : Str}
    (h : x ∈ l.map Prod.fst) : ∃ v, lookupA l x = some v := by
  induction l with
  | nil => exact absurd h (List.not_mem_nil x)
  | cons p t ih =>
    obtain ⟨k0, v0⟩ := p
    by_cases hk : k0 = x
    · exact ⟨v0, by simp [lookupA, hk]⟩
    · rw [List.map_cons, List.mem_cons] at h
      rcases h with h | h
      · exact absurd (Eq.symm h) hk
      · obtain ⟨v, hv⟩ := ih h
        exact ⟨v, by simp [lookupA, hk, hv]⟩

theorem lookup_keys {β : Type} {l : List (Str × β)} {x : Str} {v : β}
    (h : lookupA l x = some v) : x ∈ l.map Prod.fst := by
  have := lookupA_mem h
  exact List.mem_map.mpr ⟨(x, v), this, rfl⟩

theorem mem_keys_insertA {β : Type} {l : List (Str × β)} {k x : Str} {v : β} :
    x ∈ (insertA l k v).map Prod.fst ↔ x ∈ l.map Prod.fst ∨ x = k := by
  constructor
  · intro h
    obtain ⟨p, hp, hx⟩ := List.mem_map.mp h
    rcases mem_insertA hp with h2 | h2
    · exact Or.inl (List.mem_map.mpr ⟨p, h2, hx⟩)
    · subst h2; exact Or.inr (Eq.symm hx)
  · intro h
    rcases h with h | h
    · obtain ⟨v2, hv2⟩ := keys_lookup h
      have : lookupA (insertA l k v) x = some v2 ∨
          lookupA (insertA l k v) x = some v := by
        rw [lookupA_insertA]
        by_cases hx : x = k
        · exact Or.inr (by simp [hx])
        · exact Or.inl (by simp [hx, hv2])
      rcases this with h2 | h2
      · exact lookup_keys h2
      · exact lookup_keys h2
    · subst h
      have : lookupA (insertA l x v) x = some v := by
        rw [lookupA_insertA]; simp
      exact lookup_keys this

theorem nodup_keys_insertA {β : Type} {l : List (Str × β)} {k : Str} {v : β}
    (h : (l.map Prod.fst).Nodup) : ((insertA l k v).map Prod.fst).Nodup := by
  induction l with
  | nil =>
    show List.Nodup [k]
    exact List.nodup_singleton k
  | cons p t ih =>
    obtain ⟨k0, v0⟩ := p
    rw [List.map_cons, List.nodup_cons] at h
    by_cases hk : k0 = k
    · have he : insertA ((k0, v0) :: t) k v = (k, v) :: t := by
        simp [insertA, if_pos hk]
      rw [he, List.map_cons, List.nodup_cons]
      exact ⟨by rw [← hk]; exact h.1, h.2⟩
    · have he : insertA ((k0, v0) :: t) k v = (k0, v0) :: insertA t k v := by
        simp [insertA, hk]
      rw [he, List.map_cons, List.nodup_cons]
      refine ⟨fun hmem => ?_, ih h.2⟩
      rcases mem_keys_insertA.mp hmem with h2 | h2
      · exact h.1 h2
      · exact hk h2

theorem mem_addSig {l : List Str} {s x : Str} :
    x ∈ addSig l s ↔ x ∈ l ∨ x = s := by
  unfold addSig
  by_cases h : s ∈ l
  · simp only [if_pos h]
    constructor
    · exact Or.inl
    · intro hx; rcases hx with hx | hx
      · exact hx
      · exact hx ▸ h
  · simp [if_neg h]

theorem self_mem_addSig {l : List Str} {s : Str} : s ∈ addSig l s :=
  mem_addSig.mpr (Or.inr rfl)

/-! ### `safeName` lemmas -/

theorem safeName_no_slash (p : Str) : '/' ∉ safeName p := by
  intro h
  unfold safeName at h
  rw [List.mem_reverse] at h
  have := List.mem_takeWhile_imp h
  simp at this

theorem takeWhile_all_of {q : Char → Bool} :
    ∀ (l : Str), (∀ c ∈ l, q c = true) → l.takeWhile q = l := by
  intro l
  induction l with
  | nil => intro _; rfl
  | cons c t ih =>
    intro hl
    have hc : q c = true := hl c (by simp)
    rw [List.takeWhile_cons, if_pos hc, ih (fun x hx => hl x (by simp [hx]))]

theorem safeName_eq_self {p : Str} (h : '/' ∉ p) : safeName p = p := by
  unfold safeName
  have hrev : ∀ c ∈ p.reverse, c ≠ '/' := by
    intro c hc hcc
    exact h (by rw [← List.mem_reverse]; exact hcc ▸ hc)
  have hdrop : p.reverse.dropWhile (fun c => c = '/') = p.reverse := by
    cases hp : p.reverse with
    | nil => rfl
    | cons c t =>
      have : c ≠ '/' := hrev c (by simp [hp])
      simp [List.dropWhile, this]
  rw [hdrop, takeWhile_all_of p.reverse
    (fun c hc => by simp [hrev c hc]), List.reverse_reverse]

theorem safeName_idem (p : Str) : safeName (safeName p) = safeName p :=
  safeName_eq_self (safeName_no_slash p)

theorem effName_no_slash (n : Str) : '/' ∉ effName n := safeName_no_slash _

theorem effName_of_ne_nil {n : Str} (h : n ≠ []) : effName n = safeName n := by
  simp [effName, h]

/-! ### Chunker lemmas -/

theorem chunkSplitGo_fuel {S : Nat} (hS : 0 < S) :
    ∀ f1 f2 b, b.length ≤ f1 → b.length ≤ f2 →
      chunkSplitGo S f1 b = chunkSplitGo S f2 b := by
  intro f1
  induction f1 with
  | zero =>
    intro f2 b h1 _
    have : b = [] := List.length_eq_zero.mp (Nat.le_zero.mp h1)
    subst this
    cases f2 <;> rfl
  | succ f ih =>
    intro f2 b h1 h2
    cases b with
    | nil => cases f2 <;> rfl
    | cons c rest =>
      cases f2 with
      | zero => simp at h2
      | succ f2 =>
        simp only [chunkSplitGo]
        congr 1
        simp only [List.length_cons] at h1 h2
        have hd : ((c :: rest).drop S).length = rest.length + 1 - S := by
          simp [List.length_drop]
        exact ih f2 _ (by omega) (by omega)

theorem chunkSplit_cons {S : Nat} (hS : 0 < S) {b : Bytes} (hb : b ≠ []) :
    chunkSplit S b = b.take S :: chunkSplit S (b.drop S) := by
  obtain ⟨c, rest, rfl⟩ : ∃ c rest, b = c :: rest := by
    cases b with
    | nil => exact absurd rfl hb
    | cons c rest => exact ⟨c, rest, rfl⟩
  show chunkSplitGo S (rest.length + 1) (c :: rest) = _
  simp only [chunkSplitGo]
  congr 1
  apply chunkSplitGo_fuel hS
  · simp only [List.length_drop]; simp; omega
  · rfl

theorem chunkSplit_nil (S : Nat) : chunkSplit S [] = [] := rfl

theorem chunkSplit_flatten_fuel {S : Nat} (hS : 0 < S) :
    ∀ n b, b.length ≤ n → (chunkSplit S b).flatten = b := by
  intro n
  induction n with
  | zero =>
    intro b hb
    have : b = [] := List.length_eq_zero.mp (Nat.le_zero.mp hb)
    subst this; rfl
  | succ n ih =>
    intro b hb
    by_cases h : b = []
    · subst h; rfl
    · rw [chunkSplit_cons hS h]
      simp only [List.flatten_cons]
      rw [ih (b.drop S) (by
        simp only [List.length_drop]
        have : 0 < b.length := List.length_pos.mpr h
        omega)]
      exact List.take_append_drop S b

theorem chunkSplit_flatten {S : Nat} (hS : 0 < S) (b : Bytes) :
    (chunkSplit S b).flatten = b :=
  chunkSplit_flatten_fuel hS b.length b le_rfl

theorem chunkSplit_length_fuel {S : Nat} (hS : 0 < S) :
    ∀ n b, b.length ≤ n → b ≠ [] →
      (chunkSplit S b).length = (b.length + S - 1) / S := by
  intro n
  induction n with
  | zero =>
    intro b hb hne
    exact absurd (List.length_eq_zero.mp (Nat.le_zero.mp hb)) hne
  | succ n ih =>
    intro b hb hne
    have hpos : 0 < b.length := List.length_pos.mpr hne
    rw [chunkSplit_cons hS hne]
    by_cases hle : b.length ≤ S
    · have hdrop : b.drop S = [] := by
        apply List.eq_nil_of_length_eq_zero
        simp only [List.length_drop]; omega
      rw [hdrop, chunkSplit_nil]
      have hdiv : (b.length + S - 1) / S = 1 :=
        Nat.div_eq_of_lt_le (by omega) (by omega)
      simp [hdiv]
    · push_neg at hle
      have hdropne : b.drop S ≠ [] := by
        intro h
        have := congrArg List.length h
        simp only [List.length_drop] at this
        simp at this
        omega
      simp only [List.length_cons]
      rw [ih (b.drop S) (by simp only [List.length_drop]; omega) hdropne]
      simp only [List.length_drop]
      have h1 : b.length + S - 1 = (b.length - S + S - 1) + S := by omega
      rw [h1, Nat.add_div_right _ hS]

theorem chunkSplit_length {S : Nat} (hS : 0 < S) {b : Bytes} (hb : b ≠ []) :
    (chunkSplit S b).length = (b.length + S - 1) / S :=
  chunkSplit_length_fuel hS b.length b le_rfl hb

theorem chunkSplit_shape_fuel {S : Nat} (hS : 0 < S) :
    ∀ n b, b.length ≤ n → b ≠ [] →
      ∃ ls l, chunkSplit S b = ls ++ [l] ∧ (∀ c ∈ ls, c.length = S) ∧
        0 < l.length ∧ l.length ≤ S := by
  intro n
  induction n with
  | zero =>
    intro b hb hne
    exact absurd (List.length_eq_zero.mp (Nat.le_zero.mp hb)) hne
  | succ n ih =>
    intro b hb hne
    have hpos : 0 < b.length := List.length_pos.mpr hne
    rw [chunkSplit_cons hS hne]
    by_cases hle : b.length ≤ S
    · have hdrop : b.drop S = [] := by
        apply List.eq_nil_of_length_eq_zero
        simp only [List.length_drop]; omega
      refine ⟨[], b.take S, by rw [hdrop, chunkSplit_nil]; rfl, by simp, ?_, ?_⟩
      · simp only [List.length_take]; omega
      · simp only [List.length_take]; omega
    · push_neg at hle
      have hdropne : b.drop S ≠ [] := by
        intro h
        have := congrArg List.length h
        simp only [List.length_drop] at this
        simp at this
        omega
      obtain ⟨ls, l, heq, hls, hl1, hl2⟩ :=
        ih (b.drop S) (by simp only [List.length_drop]; omega) hdropne
      refine ⟨b.take S :: ls, l, by simp [heq], ?_, hl1, hl2⟩
      intro c hc
      rcases List.mem_cons.mp hc with h | h
      · subst h; simp only [List.length_take]; omega
      · exact hls c h

/-! ### `joinDash` injectivity on hex-like digest lists -/

theorem dashSplit :
    ∀ (x1 x2 r1 r2 : Str), '-' ∉ x1 → '-' ∉ x2 →
      (r1 = [] ∨ ∃ t, r1 = '-' :: t) → (r2 = [] ∨ ∃ t, r2 = '-' :: t) →
      x1 ++ r1 = x2 ++ r2 → x1 = x2 ∧ r1 = r2 := by
  intro x1
  induction x1 with
  | nil =>
    intro x2 r1 r2 _ h2 hr1 _ he
    cases x2 with
    | nil => exact ⟨rfl, he⟩
    | cons c t2 =>
      exfalso
      simp only [List.nil_append, List.cons_append] at he
      rcases hr1 with h | ⟨t, ht⟩
      · rw [h] at he; exact List.noConfusion he
      · rw [ht] at he
        have : c = '-' := (List.cons.injEq _ _ _ _ ▸ he).1.symm
        exact h2 (this ▸ List.mem_cons_self c t2)
  | cons c t ih =>
    intro x2 r1 r2 h1 h2 hr1 hr2 he
    cases x2 with
    | nil =>
      exfalso
      simp only [List.nil_append, List.cons_append] at he
      rcases hr2 with h | ⟨u, hu⟩
      · rw [h] at he; exact List.noConfusion he
      · rw [hu] at he
        have : c = '-' := (List.cons.injEq _ _ _ _ ▸ he).1
        exact h1 (this ▸ List.mem_cons_self c t)
    | cons c2 t2 =>
      simp only [List.cons_append, List.cons.injEq] at he
      obtain ⟨hc, hrest⟩ := he
      have h1t : '-' ∉ t := fun hm => h1 (List.mem_cons_of_mem c hm)
      have h2t : '-' ∉ t2 := fun hm => h2 (List.mem_cons_of_mem c2 hm)
      obtain ⟨hte, hre⟩ := ih t2 r1 r2 h1t h2t hr1 hr2 hrest
      exact ⟨by rw [hc, hte], hre⟩

theorem blocksShape (l : List Str) :
    (l.map (fun x => '-' :: x)).flatten = [] ∨
      ∃ t, (l.map (fun x => '-' :: x)).flatten = '-' :: t := by
  cases l with
  | nil => exact Or.inl rfl
  | cons s t =>
    exact Or.inr ⟨s ++ (t.map (fun x => '-' :: x)).flatten, by simp⟩

theorem blocksInj :
    ∀ l1 l2 : List Str, (∀ s ∈ l1, '-' ∉ s) → (∀ s ∈ l2, '-' ∉ s) →
      (l1.map (fun x => '-' :: x)).flatten = (l2.map (fun x => '-' :: x)).flatten →
      l1 = l2 := by
  intro l1
  induction l1 with
  | nil =>
    intro l2 _ _ he
    cases l2 with
    | nil => rfl
    | cons s t => simp at he
  | cons s1 t1 ih =>
    intro l2 hd1 hd2 he
    cases l2 with
    | nil => simp at he
    | cons s2 t2 =>
      simp only [List.map_cons, List.flatten_cons, List.cons_append,
        List.cons.injEq, true_and] at he
      obtain ⟨hs, hr⟩ := dashSplit s1 s2 _ _
        (hd1 s1 (by simp)) (hd2 s2 (by simp))
        (blocksShape t1) (blocksShape t2) he
      rw [hs, ih t2 (fun s hs2 => hd1 s (by simp [hs2]))
        (fun s hs2 => hd2 s (by simp [hs2])) hr]

theorem joinDash_inj :
    ∀ l1 l2 : List Str,
      (∀ s ∈ l1, s ≠ [] ∧ '-' ∉ s) → (∀ s ∈ l2, s ≠ [] ∧ '-' ∉ s) →
      joinDash l1 = joinDash l2 → l1 = l2 := by
  intro l1 l2 h1 h2 he
  cases l1 with
  | nil =>
    cases l2 with
    | nil => rfl
    | cons s2 t2 =>
      exfalso
      have hne : s2 ≠ [] := (h2 s2 (by simp)).1
      simp only [joinDash] at he
      rcases List.append_eq_nil.mp (Eq.symm he) with ⟨h, _⟩
      exact hne h
  | cons s1 t1 =>
    cases l2 with
    | nil =>
      exfalso
      have hne : s1 ≠ [] := (h1 s1 (by simp)).1
      simp only [joinDash] at he
      rcases List.append_eq_nil.mp he with ⟨h, _⟩
      exact hne h
    | cons s2 t2 =>
      simp only [joinDash] at he
      obtain ⟨hs, hr⟩ := dashSplit s1 s2 _ _
        (h1 s1 (by simp)).2 (h2 s2 (by simp)).2
        (blocksShape t1) (blocksShape t2) he
      rw [hs, blocksInj t1 t2 (fun s hs2 => (h1 s (by simp [hs2])).2)
        (fun s hs2 => (h2 s (by simp [hs2])).2) hr]

/-! ### The concrete hash is a `GoodHash` -/

theorem encSplit :
    ∀ (a : Nat) (r : Str) (a2 : Nat) (r2 : Str),
      List.replicate a 'a' ++ 'b' :: r = List.replicate a2 'a' ++ 'b' :: r2 →
      a = a2 ∧ r = r2 := by
  intro a
  induction a with
  | zero =>
    intro r a2 r2 h
    cases a2 with
    | zero =>
      simp only [List.replicate, List.nil_append, List.cons.injEq, true_and] at h
      exact ⟨rfl, h⟩
    | succ a2 =>
      exfalso
      simp only [List.replicate, List.nil_append, List.cons_append,
        List.cons.injEq] at h
      exact absurd h.1 (by decide)
  | succ a ih =>
    intro r a2 r2 h
    cases a2 with
    | zero =>
      exfalso
      simp only [List.replicate, List.nil_append, List.cons_append,
        List.cons.injEq] at h
      exact absurd h.1 (by decide)
    | succ a2 =>
      simp only [List.replicate, List.cons_append, List.cons.injEq,
        true_and] at h
      obtain ⟨he, hr⟩ := ih r a2 r2 h
      exact ⟨by rw [he], hr⟩

theorem encNat_ne_nil (n : Nat) : encNat n ≠ [] := by
  unfold encNat
  intro h
  rcases List.append_eq_nil.mp h with ⟨_, h2⟩
  exact List.noConfusion h2

theorem encFlattenInj :
    ∀ l1 l2 : List Nat,
      (l1.map encNat).flatten = (l2.map encNat).flatten → l1 = l2 := by
  intro l1
  induction l1 with
  | nil =>
    intro l2 he
    cases l2 with
    | nil => rfl
    | cons n t =>
      exfalso
      simp only [List.map_nil, List.flatten_nil, List.map_cons,
        List.flatten_cons] at he
      rcases List.append_eq_nil.mp (Eq.symm he) with ⟨h, _⟩
      exact encNat_ne_nil n h
  | cons n1 t1 ih =>
    intro l2 he
    cases l2 with
    | nil =>
      exfalso
      simp only [List.map_nil, List.flatten_nil, List.map_cons,
        List.flatten_cons] at he
      rcases List.append_eq_nil.mp he with ⟨h, _⟩
      exact encNat_ne_nil n1 h
    | cons n2 t2 =>
      simp only [List.map_cons, List.flatten_cons] at he
      have hsh : ∀ (n : Nat) (X : Str),
          encNat n ++ X = List.replicate n 'a' ++ 'b' :: X := by
        intro n X
        unfold encNat
        rw [List.append_assoc]
        rfl
      rw [hsh n1, hsh n2] at he
      obtain ⟨hn, hr⟩ := encSplit n1 _ n2 _ he
      rw [hn, ih t2 hr]

theorem goodHash_hashFn : GoodHash hashFn := by
  refine ⟨?_, ?_, ?_⟩
  · intro b1 b2 h
    unfold hashFn at h
    exact encFlattenInj b1 b2 (List.cons.injEq _ _ _ _ ▸ h).2
  · intro b
    unfold hashFn
    exact List.cons_ne_nil _ _
  · intro b hm
    unfold hashFn at hm
    rcases List.mem_cons.mp hm with h | h
    · exact absurd h (by decide)
    · obtain ⟨l, hl, hcl⟩ := List.mem_flatten.mp h
      obtain ⟨n, _, hn⟩ := List.mem_map.mp hl
      rw [← hn] at hcl
      unfold encNat at hcl
      rcases List.mem_append.mp hcl with h2 | h2
      · exact absurd (List.eq_of_mem_replicate h2) (by decide)
      · rcases List.mem_cons.mp h2 with h3 | h3
        · exact absurd h3 (by decide)
        · exact absurd h3 (List.not_mem_nil _)

/-! ### Chunk-writing loop lemmas -/

theorem wc_mono :
    ∀ (cs : List (Str × Bytes)) (store : List (Str × Bytes)) (w : Bool)
      (h : Str) (v : Bytes), lookupA store h = some v →
      lookupA (writeChunks store cs w).1 h = some v := by
  intro cs
  induction cs with
  | nil => intro store w h v hv; exact hv
  | cons p t ih =>
    intro store w h v hv
    obtain ⟨hh, d⟩ := p
    simp only [writeChunks]
    cases hcase : lookupA store hh with
    | some b => exact ih store w h v hv
    | none =>
      apply ih
      rw [lookupA_insertA]
      have hne : h ≠ hh := fun he => by rw [he, hcase] at hv; exact Option.noConfusion hv
      rw [if_neg hne]
      exact hv

theorem wc_hash {H : Bytes → Str} :
    ∀ (cs : List (Str × Bytes)) (store : List (Str × Bytes)) (w : Bool),
      (∀ h b, lookupA store h = some b → H b = h) →
      (∀ p ∈ cs, H p.2 = p.1) →
      ∀ h b, lookupA (writeChunks store cs w).1 h = some b → H b = h := by
  intro cs
  induction cs with
  | nil => intro store w hst _ h b hv; exact hst h b hv
  | cons p t ih =>
    intro store w hst hcs h b hv
    obtain ⟨hh, d⟩ := p
    simp only [writeChunks] at hv
    cases hcase : lookupA store hh with
    | some b2 =>
      rw [hcase] at hv
      exact ih store w hst (fun q hq => hcs q (by simp [hq])) h b hv
    | none =>
      rw [hcase] at hv
      refine ih _ true ?_ (fun q hq => hcs q (by simp [hq])) h b hv
      intro h2 b2 hb2
      rw [lookupA_insertA] at hb2
      by_cases he : h2 = hh
      · rw [if_pos he] at hb2
        have : b2 = d := Option.some.injEq _ _ ▸ hb2.symm ▸ rfl
        rw [this, he]
        exact hcs (hh, d) (by simp)
      · rw [if_neg he] at hb2
        exact hst h2 b2 hb2

theorem wc_complete :
    ∀ (cs : List (Str × Bytes)) (store : List (Str × Bytes)) (w : Bool),
      ∀ p ∈ cs, ∃ v, lookupA (writeChunks store cs w).1 p.1 = some v := by
  intro cs
  induction cs with
  | nil => intro store w p hp; exact absurd hp (List.not_mem_nil p)
  | cons q t ih =>
    intro store w p hp
    obtain ⟨hh, d⟩ := q
    simp only [writeChunks]
    rcases List.mem_cons.mp hp with h | h
    · rw [h]
      cases hcase : lookupA store hh with
      | some b => exact ⟨b, wc_mono t store w hh b hcase⟩
      | none =>
        refine ⟨d, wc_mono t _ true hh d ?_⟩
        rw [lookupA_insertA, if_pos rfl]
    · cases hcase : lookupA store hh with
      | some b => exact ih store w p h
      | none => exact ih _ true p h

theorem wc_sub :
    ∀ (cs : List (Str × Bytes)) (store : List (Str × Bytes)) (w : Bool)
      (h : Str) (v : Bytes), lookupA (writeChunks store cs w).1 h = some v →
      lookupA store h = some v ∨ h ∈ cs.map Prod.fst := by
  intro cs
  induction cs with
  | nil => intro store w h v hv; exact Or.inl hv
  | cons q t ih =>
    intro store w h v hv
    obtain ⟨hh, d⟩ := q
    simp only [writeChunks] at hv
    cases hcase : lookupA store hh with
    | some b =>
      rw [hcase] at hv
      rcases ih store w h v hv with h2 | h2
      · exact Or.inl h2
      · exact Or.inr (by simp [h2])
    | none =>
      rw [hcase] at hv
      rcases ih _ true h v hv with h2 | h2
      · rw [lookupA_insertA] at h2
        by_cases he : h = hh
        · exact Or.inr (by simp [he])
        · rw [if_neg he] at h2
          exact Or.inl h2
      · exact Or.inr (by simp [h2])

theorem wcF_ok {fl : Str → Bool} :
    ∀ (cs : List (Str × Bytes)) (store : List (Str × Bytes)) (w : Bool)
      (r : List (Str × Bytes) × Bool),
      writeChunksF fl store cs w = .ok r → writeChunks store cs w = r := by
  intro cs
  induction cs with
  | nil =>
    intro store w r h
    simp only [writeChunksF, Except.ok.injEq] at h
    exact h
  | cons q t ih =>
    intro store w r h
    obtain ⟨hh, d⟩ := q
    simp only [writeChunksF] at h
    simp only [writeChunks]
    cases hcase : lookupA store hh with
    | some b =>
      simp only [hcase] at h
      exact ih store w r h
    | none =>
      simp only [hcase] at h
      by_cases hf : fl hh
      · rw [if_pos hf] at h; exact Except.noConfusion h
      · rw [if_neg hf] at h
        exact ih _ true r h

theorem wcF_error_mono {fl : Str → Bool} :
    ∀ (cs : List (Str × Bytes)) (store st : List (Str × Bytes)) (w : Bool),
      writeChunksF fl store cs w = .error st →
      ∀ h v, lookupA store h = some v → lookupA st h = some v := by
  intro cs
  induction cs with
  | nil => intro store st w h; exact absurd h (by simp [writeChunksF])
  | cons q t ih =>
    intro store st w herr h v hv
    obtain ⟨hh, d⟩ := q
    simp only [writeChunksF] at herr
    cases hcase : lookupA store hh with
    | some b =>
      simp only [hcase] at herr
      exact ih store st w herr h v hv
    | none =>
      simp only [hcase] at herr
      by_cases hf : fl hh
      · rw [if_pos hf] at herr
        have : store = st := Except.error.inj herr
        rw [← this]
        exact hv
      · rw [if_neg hf] at herr
        apply ih _ st true herr
        rw [lookupA_insertA]
        have hne : h ≠ hh := fun he => by rw [he, hcase] at hv; exact Option.noConfusion hv
        rw [if_neg hne]
        exact hv

theorem wcF_error_sub {fl : Str → Bool} :
    ∀ (cs : List (Str × Bytes)) (store st : List (Str × Bytes)) (w : Bool),
      writeChunksF fl store cs w = .error st →
      ∀ h v, lookupA st h = some v →
        lookupA store h = some v ∨ h ∈ cs.map Prod.fst := by
  intro cs
  induction cs with
  | nil => intro store st w h; exact absurd h (by simp [writeChunksF])
  | cons q t ih =>
    intro store st w herr h v hv
    obtain ⟨hh, d⟩ := q
    simp only [writeChunksF] at herr
    cases hcase : lookupA store hh with
    | some b =>
      simp only [hcase] at herr
      rcases ih store st w herr h v hv with h2 | h2
      · exact Or.inl h2
      · exact Or.inr (by simp [h2])
    | none =>
      simp only [hcase] at herr
      by_cases hf : fl hh
      · rw [if_pos hf] at herr
        have : store = st := Except.error.inj herr
        rw [this]
        exact Or.inl hv
      · rw [if_neg hf] at herr
        rcases ih _ st true herr h v hv with h2 | h2
        · rw [lookupA_insertA] at h2
          by_cases he : h = hh
          · exact Or.inr (by simp [he])
          · rw [if_neg he] at h2
            exact Or.inl h2
        · exact Or.inr (by simp [h2])

theorem wcF_error_hash {H : Bytes → Str} {fl : Str → Bool} :
    ∀ (cs : List (Str × Bytes)) (store st : List (Str × Bytes)) (w : Bool),
      (∀ h b, lookupA store h = some b → H b = h) →
      (∀ p ∈ cs, H p.2 = p.1) →
      writeChunksF fl store cs w = .error st →
      ∀ h b, lookupA st h = some b → H b = h := by
  intro cs
  induction cs with
  | nil => intro store st w _ _ h; exact absurd h (by simp [writeChunksF])
  | cons q t ih =>
    intro store st w hst hcs herr h b hv
    obtain ⟨hh, d⟩ := q
    simp only [writeChunksF] at herr
    cases hcase : lookupA store hh with
    | some b2 =>
      simp only [hcase] at herr
      exact ih store st w hst (fun p hp => hcs p (by simp [hp])) herr h b hv
    | none =>
      simp only [hcase] at herr
      by_cases hf : fl hh
      · rw [if_pos hf] at herr
        have : store = st := Except.error.inj herr
        exact hst h b (this ▸ hv)
      · rw [if_neg hf] at herr
        refine ih _ st true ?_ (fun p hp => hcs p (by simp [hp])) herr h b hv
        intro h2 b2 hb2
        rw [lookupA_insertA] at hb2
        by_cases he : h2 = hh
        · rw [if_pos he] at hb2
          have : b2 = d := Option.some.injEq _ _ ▸ hb2.symm ▸ rfl
          rw [this, he]
          exact hcs (hh, d) (by simp)
        · rw [if_neg he] at hb2
          exact hst h2 b2 hb2

/-! ### Bootstrap fold lemmas -/

/-- Whether a durable record parses (used only to state skip lemmas). -/
def isOkRec : MRec → Bool
  | .ok _ => true
  | .bad _ => false

/-- First-defined choice on optional meta values. -/
def oElse (a b : Option Meta) : Option Meta :=
  match a with
  | some v => some v
  | none => b

theorem oElse_assoc (a b c : Option Meta) :
    oElse (oElse a b) c = oElse a (oElse b c) := by
  cases a <;> rfl

theorem findInner_cons (k : Str) (r : MRec) (t : List (Str × MRec)) (x : Str) :
    findInner ((k, r) :: t) x = oElse (findInner t x) (recMeta x k r) := rfl

theorem recMeta_bad (x k raw : Str) : recMeta x k (.bad raw) = none := by
  by_cases hj : endsJson k <;> simp [recMeta, hj]

theorem recMeta_ok_json {k : Str} (hj : endsJson k = true) (x : Str) (m : Manifest) :
    recMeta x k (.ok m) =
      if m.filename = x then some ⟨m.signature, m.chunkHashes⟩ else none := by
  simp [recMeta, hj]

theorem recMeta_nojson {k : Str} (hj : ¬ endsJson k = true) (x : Str) (r : MRec) :
    recMeta x k r = none := by
  cases r <;> simp [recMeta, hj]

theorem bootStep_ok_json {k : Str} (hj : endsJson k = true)
    (acc : List (Str × Meta) × List Str) (m : Manifest) :
    bootStep acc k (.ok m) =
      (insertA acc.1 m.filename ⟨m.signature, m.chunkHashes⟩,
       addSig acc.2 m.signature) := by
  simp [bootStep, hj]

theorem bootStep_bad (acc : List (Str × Meta) × List Str) (k raw : Str) :
    bootStep acc k (.bad raw) = acc := by
  by_cases hj : endsJson k <;> simp [bootStep, hj]

theorem bootStep_nojson {k : Str} (hj : ¬ endsJson k = true)
    (acc : List (Str × Meta) × List Str) (r : MRec) :
    bootStep acc k r = acc := by
  cases r <;> simp [bootStep, hj]

theorem boot_step_lookup (acc : List (Str × Meta) × List Str) (k : Str)
    (r : MRec) (x : Str) :
    lookupA (bootStep acc k r).1 x = oElse (recMeta x k r) (lookupA acc.1 x) := by
  by_cases hj : endsJson k
  · cases r with
    | ok m =>
      rw [bootStep_ok_json hj, recMeta_ok_json hj, lookupA_insertA]
      by_cases hx : m.filename = x
      · rw [if_pos (Eq.symm hx), if_pos hx]
        rfl
      · rw [if_neg (fun he => hx (Eq.symm he)), if_neg hx]
        rfl
    | bad raw =>
      rw [bootStep_bad, recMeta_bad]
      rfl
  · rw [bootStep_nojson hj, recMeta_nojson hj]
    rfl

theorem boot_lookup (x : Str) :
    ∀ (ms : List (Str × MRec)) (acc : List (Str × Meta) × List Str),
      lookupA (bootAccum ms acc).1 x = oElse (findInner ms x) (lookupA acc.1 x) := by
  intro ms
  induction ms with
  | nil => intro acc; rfl
  | cons p t ih =>
    intro acc
    obtain ⟨k, r⟩ := p
    show lookupA (bootAccum t (bootStep acc k r)).1 x = _
    rw [ih (bootStep acc k r), boot_step_lookup, findInner_cons, oElse_assoc]

theorem findInner_some :
    ∀ (ms : List (Str × MRec)) (x : Str) (v : Meta), findInner ms x = some v →
      ∃ k m, (k, MRec.ok m) ∈ ms ∧ endsJson k = true ∧ m.filename = x ∧
        v = ⟨m.signature, m.chunkHashes⟩ := by
  intro ms
  induction ms with
  | nil => intro x v h; exact absurd h (by simp [findInner])
  | cons p t ih =>
    intro x v h
    obtain ⟨k, r⟩ := p
    rw [findInner_cons] at h
    cases hft : findInner t x with
    | some v2 =>
      rw [hft] at h
      have hv : v2 = v := Option.some.inj h
      obtain ⟨k2, m2, hm2, hj2, hf2, hv2⟩ := ih x v2 hft
      exact ⟨k2, m2, List.mem_cons_of_mem _ hm2, hj2, hf2, hv ▸ hv2⟩
    | none =>
      rw [hft] at h
      have h2 : recMeta x k r = some v := h
      cases r with
      | ok m =>
        by_cases hj : endsJson k
        · rw [recMeta_ok_json hj] at h2
          by_cases hf : m.filename = x
          · rw [if_pos hf] at h2
            exact ⟨k, m, List.mem_cons_self _ _, hj, hf, (Option.some.inj h2).symm⟩
          · rw [if_neg hf] at h2
            exact absurd h2 Option.noConfusion
        · rw [recMeta_nojson hj] at h2
          exact absurd h2 Option.noConfusion
      | bad raw =>
        rw [recMeta_bad] at h2
        exact absurd h2 Option.noConfusion

theorem boot_sigs_mem (x : Str) :
    ∀ (ms : List (Str × MRec)) (acc : List (Str × Meta) × List Str),
      x ∈ (bootAccum ms acc).2 →
      x ∈ acc.2 ∨ ∃ k m, (k, MRec.ok m) ∈ ms ∧ m.signature = x := by
  intro ms
  induction ms with
  | nil => intro acc h; exact Or.inl h
  | cons p t ih =>
    intro acc h
    obtain ⟨k, r⟩ := p
    have h2 : x ∈ (bootStep acc k r).2 ∨
        ∃ k2 m, (k2, MRec.ok m) ∈ t ∧ m.signature = x :=
      ih (bootStep acc k r) h
    rcases h2 with h2 | ⟨k2, m, hm, hs⟩
    · by_cases hj : endsJson k
      · cases r with
        | ok m =>
          rw [bootStep_ok_json hj] at h2
          rcases mem_addSig.mp h2 with h3 | h3
          · exact Or.inl h3
          · exact Or.inr ⟨k, m, List.mem_cons_self _ _, Eq.symm h3⟩
        | bad raw =>
          rw [bootStep_bad] at h2
          exact Or.inl h2
      · rw [bootStep_nojson hj] at h2
        exact Or.inl h2
    · exact Or.inr ⟨k2, m, List.mem_cons_of_mem _ hm, hs⟩

theorem bootAccum_filter :
    ∀ (ms : List (Str × MRec)) (acc : List (Str × Meta) × List Str),
      bootAccum ms acc =
        bootAccum (ms.filter (fun p => endsJson p.1 && isOkRec p.2)) acc := by
  intro ms
  induction ms with
  | nil => intro acc; rfl
  | cons p t ih =>
    intro acc
    obtain ⟨k, r⟩ := p
    rw [List.filter_cons]
    by_cases hj : endsJson k
    · cases r with
      | ok m =>
        rw [if_pos (by simp [hj, isOkRec])]
        show bootAccum t (bootStep acc k (.ok m)) = _
        exact ih (bootStep acc k (.ok m))
      | bad raw =>
        rw [if_neg (by simp [isOkRec])]
        show bootAccum t (bootStep acc k (.bad raw)) = _
        rw [bootStep_bad]
        exact ih acc
    · rw [if_neg (by simp [hj])]
      show bootAccum t (bootStep acc k r) = _
      rw [bootStep_nojson hj]
      exact ih acc

theorem endsJson_append (a : Str) : endsJson (a ++ jsonExt) = true := by
  unfold endsJson
  rw [decide_eq_true_eq, List.reverse_append]
  rfl

theorem json_key_inj {a b : Str} (h : a ++ jsonExt = b ++ jsonExt) : a = b :=
  List.append_cancel_right h

theorem findInner_none :
    ∀ (ms : List (Str × MRec)),
      (∀ k r, (k, r) ∈ ms → ∃ m, r = .ok m ∧ k = m.filename ++ jsonExt) →
      ∀ fn : Str, (∀ p ∈ ms, p.1 ≠ fn ++ jsonExt) → findInner ms fn = none := by
  intro ms
  induction ms with
  | nil => intro _ fn _; rfl
  | cons p t ih =>
    intro hWF fn hne
    obtain ⟨k, r⟩ := p
    rw [findInner_cons,
      ih (fun k2 r2 hm => hWF k2 r2 (List.mem_cons_of_mem _ hm)) fn
        (fun q hq => hne q (List.mem_cons_of_mem _ hq))]
    obtain ⟨m, hr, hk⟩ := hWF k r (List.mem_cons_self _ _)
    subst hr
    show recMeta fn k (.ok m) = none
    by_cases hj : endsJson k
    · have hf : ¬ m.filename = fn := by
        intro hf
        exact hne (k, .ok m) (List.mem_cons_self _ _) (by rw [hk, hf])
      rw [recMeta_ok_json hj, if_neg hf]
    · rw [recMeta_nojson hj]

theorem findInner_insertA :
    ∀ (ms : List (Str × MRec)),
      (∀ k r, (k, r) ∈ ms → ∃ m, r = .ok m ∧ k = m.filename ++ jsonExt) →
      (ms.map Prod.fst).Nodup →
      ∀ (fn sg : Str) (hs : List Str) (x : Str),
        findInner (insertA ms (fn ++ jsonExt) (.ok ⟨fn, sg, hs⟩)) x =
          if x = fn then some ⟨sg, hs⟩ else findInner ms x := by
  intro ms
  induction ms with
  | nil =>
    intro _ _ fn sg hs x
    show oElse (findInner [] x) (recMeta x (fn ++ jsonExt) (.ok ⟨fn, sg, hs⟩)) = _
    show recMeta x (fn ++ jsonExt) (.ok ⟨fn, sg, hs⟩) = _
    rw [recMeta_ok_json (endsJson_append fn)]
    show (if fn = x then some (⟨sg, hs⟩ : Meta) else none) = _
    by_cases hx : x = fn
    · rw [if_pos (Eq.symm hx), if_pos hx]
    · rw [if_neg (fun he => hx (Eq.symm he)), if_neg hx]
      rfl
  | cons p t ih =>
    intro hWF hN fn sg hs x
    obtain ⟨k, r⟩ := p
    obtain ⟨m, hr, hk⟩ := hWF k r (List.mem_cons_self _ _)
    subst hr
    rw [List.map_cons, List.nodup_cons] at hN
    by_cases hkey : k = fn ++ jsonExt
    · have hfn : m.filename = fn := json_key_inj (by rw [← hk, hkey])
      have hins : insertA ((k, MRec.ok m) :: t) (fn ++ jsonExt) (.ok ⟨fn, sg, hs⟩) =
          (fn ++ jsonExt, MRec.ok ⟨fn, sg, hs⟩) :: t := by
        simp [insertA, if_pos hkey]
      rw [hins, findInner_cons]
      by_cases hx : x = fn
      · have hft : findInner t x = none := by
          apply findInner_none t
            (fun k2 r2 hm => hWF k2 r2 (List.mem_cons_of_mem _ hm))
          intro q hq hqe
          apply hN.1
          have hqk : q.1 = k := by rw [hqe, hx, ← hkey]
          rw [← hqk]
          exact List.mem_map.mpr ⟨q, hq, rfl⟩
        rw [hft, if_pos hx]
        show recMeta x (fn ++ jsonExt) (.ok ⟨fn, sg, hs⟩) = _
        rw [recMeta_ok_json (endsJson_append fn)]
        show (if fn = x then some (⟨sg, hs⟩ : Meta) else none) = _
        rw [if_pos (Eq.symm hx)]
      · rw [if_neg hx]
        have hrm : recMeta x (fn ++ jsonExt) (.ok ⟨fn, sg, hs⟩) = none := by
          rw [recMeta_ok_json (endsJson_append fn)]
          show (if fn = x then some (⟨sg, hs⟩ : Meta) else none) = none
          rw [if_neg (fun he => hx (Eq.symm he))]
        rw [hrm, findInner_cons]
        have hrm2 : recMeta x k (.ok m) = none := by
          by_cases hj : endsJson k
          · rw [recMeta_ok_json hj, if_neg (fun he => hx (by rw [← he, hfn]))]
          · rw [recMeta_nojson hj]
        rw [hrm2]
    · have hins : insertA ((k, MRec.ok m) :: t) (fn ++ jsonExt) (.ok ⟨fn, sg, hs⟩) =
          (k, MRec.ok m) :: insertA t (fn ++ jsonExt) (.ok ⟨fn, sg, hs⟩) := by
        simp [insertA, hkey]
      rw [hins, findInner_cons,
        ih (fun k2 r2 hm => hWF k2 r2 (List.mem_cons_of_mem _ hm)) hN.2 fn sg hs x]
      by_cases hx : x = fn
      · rw [if_pos hx, if_pos hx]
        rfl
      · rw [if_neg hx, if_neg hx, findInner_cons]


/-! ### Upload structure lemmas -/

theorem uploadOpS_old {H : Bytes → Str} {S : Nat} {s : Sys} {n : Str} {b : Bytes}
    (hsig : sigOf H S b ∈ s.fileSignatures) :
    uploadOpS H S s n b =
      ({ fileMeta := insertA s.fileMeta (effName n) ⟨sigOf H S b, hashesOf H S b⟩,
         fileSignatures := s.fileSignatures,
         chunkStore := s.chunkStore,
         manifestStore := insertA s.manifestStore (effName n ++ jsonExt)
           (.ok ⟨effName n, sigOf H S b, hashesOf H S b⟩) },
       ⟨false, effName n, (hashesOf H S b).length⟩) := by
  unfold sigOf at hsig
  simp only [uploadOpS]
  rw [if_pos hsig]
  rfl

theorem uploadOpS_new {H : Bytes → Str} {S : Nat} {s : Sys} {n : Str} {b : Bytes}
    (hsig : sigOf H S b ∉ s.fileSignatures) :
    uploadOpS H S s n b =
      ({ fileMeta := insertA s.fileMeta (effName n) ⟨sigOf H S b, hashesOf H S b⟩,
         fileSignatures := addSig s.fileSignatures (sigOf H S b),
         chunkStore := (writeChunks s.chunkStore (chunkAndHash H S b) false).1,
         manifestStore := insertA s.manifestStore (effName n ++ jsonExt)
           (.ok ⟨effName n, sigOf H S b, hashesOf H S b⟩) },
       ⟨(writeChunks s.chunkStore (chunkAndHash H S b) false).2, effName n,
        (hashesOf H S b).length⟩) := by
  unfold sigOf at hsig
  simp only [uploadOpS]
  rw [if_neg hsig]
  rfl

theorem uploadFS_old {H : Bytes → Str} {S : Nat} {fl : Str → Bool} {s : Sys}
    {n : Str} {b : Bytes} (hsig : sigOf H S b ∈ s.fileSignatures) :
    uploadFS H S fl s n b =
      .ok ({ s with
              fileMeta := insertA s.fileMeta (effName n) ⟨sigOf H S b, hashesOf H S b⟩,
              manifestStore := insertA s.manifestStore (effName n ++ jsonExt)
                (.ok ⟨effName n, sigOf H S b, hashesOf H S b⟩) },
           ⟨false, effName n, (hashesOf H S b).length⟩) := by
  unfold sigOf at hsig
  simp only [uploadFS]
  rw [if_pos hsig]
  rfl

theorem uploadFS_error_eq {H : Bytes → Str} {S : Nat} {fl : Str → Bool} {s s2 : Sys}
    {n : Str} {b : Bytes} (herr : uploadFS H S fl s n b = .error s2) :
    sigOf H S b ∉ s.fileSignatures ∧
    writeChunksF fl s.chunkStore (chunkAndHash H S b) false = .error s2.chunkStore ∧
    s2 = { s with chunkStore := s2.chunkStore } := by
  by_cases hsig : sigOf H S b ∈ s.fileSignatures
  · exfalso
    rw [uploadFS_old hsig] at herr
    exact Except.noConfusion herr
  · refine ⟨hsig, ?_, ?_⟩ <;>
    · unfold sigOf at hsig
      simp only [uploadFS] at herr
      rw [if_neg hsig] at herr
      cases hwc : writeChunksF fl s.chunkStore (chunkAndHash H S b) false with
      | error st =>
        simp only [hwc] at herr
        have he : { s with chunkStore := st } = s2 := Except.error.inj herr
        rw [← he]
      | ok r =>
        simp only [hwc] at herr
        exact Except.noConfusion herr

theorem uploadFS_ok_eq {H : Bytes → Str} {S : Nat} {fl : Str → Bool} {s : Sys}
    {n : Str} {b : Bytes} {r : Sys × UploadResp}
    (hok : uploadFS H S fl s n b = .ok r) : uploadOpS H S s n b = r := by
  by_cases hsig : sigOf H S b ∈ s.fileSignatures
  · rw [uploadFS_old hsig] at hok
    rw [uploadOpS_old hsig]
    exact Except.ok.inj hok
  · have hsig2 := hsig
    unfold sigOf at hsig2
    simp only [uploadFS] at hok
    rw [if_neg hsig2] at hok
    cases hwc : writeChunksF fl s.chunkStore (chunkAndHash H S b) false with
    | error st =>
      simp only [hwc] at hok
      exact Except.noConfusion hok
    | ok wr =>
      simp only [hwc] at hok
      have hwr := wcF_ok (chunkAndHash H S b) s.chunkStore false wr hwc
      rw [uploadOpS_new hsig, hwr]
      exact Except.ok.inj hok

/-! ### Store-extension monotonicity -/

/-- Every blob present in the first store is present, with the same bytes,
in the second. -/
def storeExt (st st2 : List (Str × Bytes)) : Prop :=
  ∀ h v, lookupA st h = some v → lookupA st2 h = some v

theorem HsOK_mono {st st2 : List (Str × Bytes)} {hs : List Str}
    (he : storeExt st st2) (h : HsOK st hs) : HsOK st2 hs := by
  intro h2 hm
  obtain ⟨h1, h2d, bb, hb⟩ := h h2 hm
  exact ⟨h1, h2d, bb, he h2 bb hb⟩

theorem SigOK_mono {st st2 : List (Str × Bytes)} {sig : Str}
    (he : storeExt st st2) (h : SigOK st sig) : SigOK st2 sig := by
  obtain ⟨hs, hj, hOK⟩ := h
  exact ⟨hs, hj, HsOK_mono he hOK⟩

theorem MetaOK_mono {st st2 : List (Str × Bytes)} {mt : Meta}
    (he : storeExt st st2) (h : MetaOK st mt) : MetaOK st2 mt :=
  ⟨h.1, HsOK_mono he h.2⟩

theorem uploadOpS_storeExt (H : Bytes → Str) (S : Nat) (s : Sys) (n : Str)
    (b : Bytes) : storeExt s.chunkStore ((uploadOpS H S s n b).1).chunkStore := by
  by_cases hsig : sigOf H S b ∈ s.fileSignatures
  · rw [uploadOpS_old hsig]
    exact fun h v hv => hv
  · rw [uploadOpS_new hsig]
    exact fun h v hv => wc_mono _ _ _ h v hv

/-! ### What an upload guarantees about the chunk store -/

theorem chunkAndHash_pairs {H : Bytes → Str} {S : Nat} {b : Bytes} :
    ∀ p ∈ chunkAndHash H S b, H p.2 = p.1 := by
  intro p hp
  obtain ⟨c, _, hc⟩ := List.mem_map.mp hp
  rw [← hc]

theorem hashesOf_props {H : Bytes → Str} (hG : GoodHash H) {S : Nat} {b : Bytes} :
    ∀ h ∈ hashesOf H S b, h ≠ [] ∧ '-' ∉ h := by
  intro h hm
  obtain ⟨c, _, hc⟩ := List.mem_map.mp hm
  exact ⟨hc ▸ hG.ne c, hc ▸ hG.nd c⟩

theorem upload_hash_inv {H : Bytes → Str} {S : Nat} {s : Sys}
    (hInv : SysInv H s) (n : Str) (b : Bytes) :
    ∀ h v, lookupA ((uploadOpS H S s n b).1).chunkStore h = some v → H v = h := by
  by_cases hsig : sigOf H S b ∈ s.fileSignatures
  · rw [uploadOpS_old hsig]
    exact hInv.storeHash
  · rw [uploadOpS_new hsig]
    exact wc_hash _ _ _ hInv.storeHash chunkAndHash_pairs

theorem upload_stored {H : Bytes → Str} {S : Nat} {s : Sys}
    (hG : GoodHash H) (hInv : SysInv H s) (n : Str) (b : Bytes) :
    ∀ c ∈ chunkSplit S b,
      lookupA ((uploadOpS H S s n b).1).chunkStore (H c) = some c := by
  intro c hc
  have hgen : ∃ v, lookupA ((uploadOpS H S s n b).1).chunkStore (H c) = some v := by
    by_cases hsig : sigOf H S b ∈ s.fileSignatures
    · rw [uploadOpS_old hsig]
      obtain ⟨hs0, hj, hOK⟩ := hInv.sigOk _ hsig
      have heq : hashesOf H S b = hs0 := by
        apply joinDash_inj
        · exact hashesOf_props hG
        · exact fun q hq => ⟨(hOK q hq).1, (hOK q hq).2.1⟩
        · exact hj
      have hmem : H c ∈ hs0 := heq ▸ List.mem_map.mpr ⟨c, hc, rfl⟩
      exact (hOK (H c) hmem).2.2
    · rw [uploadOpS_new hsig]
      exact wc_complete (chunkAndHash H S b) s.chunkStore false (H c, c)
        (List.mem_map.mpr ⟨c, hc, rfl⟩)
  obtain ⟨v, hv⟩ := hgen
  have : H v = H c := upload_hash_inv hInv n b (H c) v hv
  rw [hv, hG.inj this]


/-! ### Invariant preservation -/

theorem uploadOpS_fileMeta (H : Bytes → Str) (S : Nat) (s : Sys) (n : Str)
    (b : Bytes) :
    ((uploadOpS H S s n b).1).fileMeta =
      insertA s.fileMeta (effName n) ⟨sigOf H S b, hashesOf H S b⟩ := rfl

theorem uploadOpS_manifest (H : Bytes → Str) (S : Nat) (s : Sys) (n : Str)
    (b : Bytes) :
    ((uploadOpS H S s n b).1).manifestStore =
      insertA s.manifestStore (effName n ++ jsonExt)
        (.ok ⟨effName n, sigOf H S b, hashesOf H S b⟩) := rfl

theorem sig_mem_upload (H : Bytes → Str) (S : Nat) (s : Sys) (n : Str)
    (b : Bytes) :
    sigOf H S b ∈ ((uploadOpS H S s n b).1).fileSignatures := by
  by_cases hsig : sigOf H S b ∈ s.fileSignatures
  · rw [uploadOpS_old hsig]
    exact hsig
  · rw [uploadOpS_new hsig]
    exact self_mem_addSig

theorem sig_sub_upload {H : Bytes → Str} {S : Nat} {s : Sys} {n : Str}
    {b : Bytes} {x : Str}
    (hm : x ∈ ((uploadOpS H S s n b).1).fileSignatures) :
    x ∈ s.fileSignatures ∨ x = sigOf H S b := by
  by_cases hsig : sigOf H S b ∈ s.fileSignatures
  · rw [uploadOpS_old hsig] at hm
    exact Or.inl hm
  · rw [uploadOpS_new hsig] at hm
    exact mem_addSig.mp hm

theorem upload_hsOK {H : Bytes → Str} {S : Nat} {s : Sys}
    (hG : GoodHash H) (hInv : SysInv H s) (n : Str) (b : Bytes) :
    HsOK ((uploadOpS H S s n b).1).chunkStore (hashesOf H S b) := by
  intro h hm
  obtain ⟨c, hc, hch⟩ := List.mem_map.mp hm
  refine ⟨hch ▸ hG.ne c, hch ▸ hG.nd c, c, ?_⟩
  rw [← hch]
  exact upload_stored hG hInv n b c hc

theorem manOk_WF {H : Bytes → Str} {s : Sys} (hInv : SysInv H s) :
    ∀ k r, (k, r) ∈ s.manifestStore →
      ∃ m, r = .ok m ∧ k = m.filename ++ jsonExt := by
  intro k r hm
  obtain ⟨m, h1, h2, _, _⟩ := hInv.manOk k r hm
  exact ⟨m, h1, h2⟩

theorem inv_upload {H : Bytes → Str} {S : Nat} {s : Sys}
    (hG : GoodHash H) (hInv : SysInv H s) (n : Str) (b : Bytes) :
    SysInv H (uploadOpS H S s n b).1 := by
  have hext := uploadOpS_storeExt H S s n b
  have hHs := upload_hsOK (S := S) hG hInv n b
  refine ⟨?_, ?_, ?_, ?_, ?_, ?_, ?_⟩
  · exact upload_hash_inv hInv n b
  · intro sig hm
    rcases sig_sub_upload hm with hold | hnew
    · exact SigOK_mono hext (hInv.sigOk _ hold)
    · subst hnew
      exact ⟨hashesOf H S b, rfl, hHs⟩
  · intro n2 mt h
    rw [uploadOpS_fileMeta, lookupA_insertA] at h
    by_cases hx : n2 = effName n
    · rw [if_pos hx] at h
      have : mt = ⟨sigOf H S b, hashesOf H S b⟩ := (Option.some.inj h).symm
      rw [this]
      exact ⟨rfl, hHs⟩
    · rw [if_neg hx] at h
      exact MetaOK_mono hext (hInv.metaOk n2 mt h)
  · intro k r hm
    rw [uploadOpS_manifest] at hm
    rcases mem_insertA hm with hold | hnew
    · obtain ⟨m, h1, h2, h3, h4⟩ := hInv.manOk k r hold
      exact ⟨m, h1, h2, h3, MetaOK_mono hext h4⟩
    · have hk : k = effName n ++ jsonExt := congrArg Prod.fst hnew
      have hr : r = .ok ⟨effName n, sigOf H S b, hashesOf H S b⟩ :=
        congrArg Prod.snd hnew
      exact ⟨⟨effName n, sigOf H S b, hashesOf H S b⟩, hr, hk,
        effName_no_slash n, rfl, hHs⟩
  · rw [uploadOpS_manifest]
    exact nodup_keys_insertA hInv.manKeys
  · intro x
    rw [uploadOpS_fileMeta, lookupA_insertA, uploadOpS_manifest,
      findInner_insertA s.manifestStore (manOk_WF hInv) hInv.manKeys]
    by_cases hx : x = effName n
    · rw [if_pos hx, if_pos hx]
    · rw [if_neg hx, if_neg hx]
      exact hInv.metaBoot x
  · intro n2 mt h
    rw [uploadOpS_fileMeta, lookupA_insertA] at h
    by_cases hx : n2 = effName n
    · rw [hx]
      exact effName_no_slash n
    · rw [if_neg hx] at h
      exact hInv.metaSlash n2 mt h

theorem inv_upFail {H : Bytes → Str} {S : Nat} {fl : Str → Bool} {s s2 : Sys}
    {n : Str} {b : Bytes} (hInv : SysInv H s)
    (herr : uploadFS H S fl s n b = .error s2) : SysInv H s2 := by
  obtain ⟨hsig, hwc, hs2⟩ := uploadFS_error_eq herr
  have hfm : s2.fileMeta = s.fileMeta := by rw [hs2]
  have hfs : s2.fileSignatures = s.fileSignatures := by rw [hs2]
  have hms : s2.manifestStore = s.manifestStore := by rw [hs2]
  have hext : storeExt s.chunkStore s2.chunkStore :=
    fun h v hv => wcF_error_mono _ _ _ _ hwc h v hv
  refine ⟨?_, ?_, ?_, ?_, ?_, ?_, ?_⟩
  · exact wcF_error_hash _ _ _ _ hInv.storeHash chunkAndHash_pairs hwc
  · intro sig hm
    rw [hfs] at hm
    exact SigOK_mono hext (hInv.sigOk _ hm)
  · intro n2 mt h
    rw [hfm] at h
    exact MetaOK_mono hext (hInv.metaOk n2 mt h)
  · intro k r hm
    rw [hms] at hm
    obtain ⟨m, h1, h2, h3, h4⟩ := hInv.manOk k r hm
    exact ⟨m, h1, h2, h3, MetaOK_mono hext h4⟩
  · rw [hms]
    exact hInv.manKeys
  · intro x
    rw [hfm, hms]
    exact hInv.metaBoot x
  · intro n2 mt h
    rw [hfm] at h
    exact hInv.metaSlash n2 mt h

theorem restart_lookup (s : Sys) (x : Str) :
    lookupA (restartS s).fileMeta x = findInner s.manifestStore x := by
  show lookupA (bootMetaOf s.manifestStore) x = _
  unfold bootMetaOf
  rw [boot_lookup x s.manifestStore ([], [])]
  cases findInner s.manifestStore x <;> rfl

theorem inv_restart {H : Bytes → Str} {s : Sys} (hInv : SysInv H s) :
    SysInv H (restartS s) := by
  refine ⟨?_, ?_, ?_, ?_, ?_, ?_, ?_⟩
  · exact hInv.storeHash
  · intro sig hm
    rcases boot_sigs_mem sig s.manifestStore ([], []) hm with h0 | ⟨k, m, hkm, hsg⟩
    · exact absurd h0 (List.not_mem_nil sig)
    · obtain ⟨m2, hok, _, _, hM⟩ := hInv.manOk k (.ok m) hkm
      have hmm : m = m2 := MRec.ok.inj hok
      refine ⟨m2.chunkHashes, ?_, hM.2⟩
      rw [← hsg, hmm]
      exact hM.1
  · intro x mt h
    rw [restart_lookup] at h
    obtain ⟨k, m, hkm, _, _, hv⟩ := findInner_some s.manifestStore x mt h
    obtain ⟨m2, hok, _, _, hM⟩ := hInv.manOk k (.ok m) hkm
    have hmm : m = m2 := MRec.ok.inj hok
    rw [hv, hmm]
    exact hM
  · exact hInv.manOk
  · exact hInv.manKeys
  · exact restart_lookup s
  · intro n2 mt h
    rw [restart_lookup] at h
    obtain ⟨k, m, hkm, _, hfn, _⟩ := findInner_some s.manifestStore n2 mt h
    obtain ⟨m2, hok, _, hsl, _⟩ := hInv.manOk k (.ok m) hkm
    rw [← hfn, MRec.ok.inj hok]
    exact hsl

theorem inv_init {H : Bytes → Str} : SysInv H sysInit := by
  refine ⟨?_, ?_, ?_, ?_, ?_, ?_, ?_⟩
  · intro h b hb
    exact Option.noConfusion hb
  · intro sig hm
    exact absurd hm (List.not_mem_nil sig)
  · intro n mt h
    exact Option.noConfusion h
  · intro k r hm
    exact absurd hm (List.not_mem_nil (k, r))
  · exact List.nodup_nil
  · intro x
    rfl
  · intro n mt h
    exact Option.noConfusion h

theorem reach_inv {H : Bytes → Str} (hG : GoodHash H) :
    ∀ s : Sys, Reach H s → SysInv H s := by
  intro s h
  induction h with
  | init => exact inv_init
  | up s n b _ ih => exact inv_upload hG ih n b
  | upFail s s2 fl n b _ herr ih => exact inv_upFail ih herr
  | restart s _ ih => exact inv_restart ih


/-! ### Download machinery -/

/-- The pure value computed by the blob-reading loop: it depends only on
the chunk store. -/
def pureRead (store : List (Str × Bytes)) : List Str → Except Str (List Bytes)
  | [] => .ok []
  | h :: t =>
    match lookupA store h with
    | none => .error h
    | some b =>
      match pureRead store t with
      | .error h2 => .error h2
      | .ok bl => .ok (b :: bl)

theorem readLoop_fst (s : Sys) : ∀ hs : List Str, (readLoop s hs).1 = s := by
  intro hs
  induction hs with
  | nil => rfl
  | cons h t ih =>
    simp only [readLoop]
    cases hc : lookupA s.chunkStore h with
    | none => rfl
    | some b =>
      cases hr : readLoop s t with
      | mk s2 r =>
        rw [hr] at ih
        cases r with
        | error h2 => exact ih
        | ok bl => exact ih

theorem readLoop_snd (s : Sys) :
    ∀ hs : List Str, (readLoop s hs).2 = pureRead s.chunkStore hs := by
  intro hs
  induction hs with
  | nil => rfl
  | cons h t ih =>
    simp only [readLoop, pureRead]
    cases hc : lookupA s.chunkStore h with
    | none => rfl
    | some b =>
      cases hr : readLoop s t with
      | mk s2 r =>
        rw [hr] at ih
        rw [← ih]
        cases r with
        | error h2 => rfl
        | ok bl => rfl

theorem download_eq (s : Sys) (x : Str) :
    download s x =
      match lookupA s.fileMeta (safeName x) with
      | none => .notFound
      | some mt =>
        match pureRead s.chunkStore mt.chunkHashes with
        | .error h => .corrupt h
        | .ok bl => .ok bl.flatten := by
  unfold download downloadSt
  cases hl : lookupA s.fileMeta (safeName x) with
  | none => rfl
  | some mt =>
    dsimp only
    cases hr : readLoop s mt.chunkHashes with
    | mk s2 r =>
      have hsnd := readLoop_snd s mt.chunkHashes
      rw [hr] at hsnd
      rw [← hsnd]
      cases r with
      | error h2 => rfl
      | ok bl => rfl

theorem download_ext {s1 s2 : Sys}
    (hfm : ∀ y, lookupA s1.fileMeta y = lookupA s2.fileMeta y)
    (hcs : s1.chunkStore = s2.chunkStore) (x : Str) :
    download s1 x = download s2 x := by
  rw [download_eq, download_eq, hfm (safeName x), hcs]

theorem pureRead_map {H : Bytes → Str} {store : List (Str × Bytes)} :
    ∀ l : List Bytes, (∀ c ∈ l, lookupA store (H c) = some c) →
      pureRead store (l.map H) = .ok l := by
  intro l
  induction l with
  | nil => intro _; rfl
  | cons c t ih =>
    intro hl
    simp only [List.map_cons, pureRead, hl c (by simp),
      ih (fun c2 hc2 => hl c2 (by simp [hc2]))]

theorem pureRead_error_iff {store : List (Str × Bytes)} :
    ∀ hs : List Str,
      ((∃ h, h ∈ hs ∧ lookupA store h = none) ↔
        ∃ h, pureRead store hs = .error h) := by
  intro hs
  induction hs with
  | nil =>
    constructor
    · intro ⟨h, hm, _⟩
      exact absurd hm (List.not_mem_nil h)
    · intro ⟨h, he⟩
      exact absurd he (by simp [pureRead])
  | cons h0 t ih =>
    simp only [pureRead]
    cases hc : lookupA store h0 with
    | none =>
      constructor
      · intro _
        exact ⟨h0, rfl⟩
      · intro _
        exact ⟨h0, List.mem_cons_self _ _, hc⟩
    | some b =>
      cases hr : pureRead store t with
      | error h2 =>
        constructor
        · intro _
          exact ⟨h2, rfl⟩
        · intro _
          obtain ⟨h3, hm3, hl3⟩ := ih.mpr ⟨h2, hr⟩
          exact ⟨h3, List.mem_cons_of_mem _ hm3, hl3⟩
      | ok bl =>
        constructor
        · intro ⟨h3, hm3, hl3⟩
          rcases List.mem_cons.mp hm3 with h4 | h4
          · rw [h4, hc] at hl3
            exact absurd hl3 (Option.noConfusion)
          · obtain ⟨h5, he5⟩ := ih.mp ⟨h3, h4, hl3⟩
            rw [he5] at hr
            exact absurd hr (Except.noConfusion)
        · intro ⟨h3, he3⟩
          exact absurd he3 (Except.noConfusion)

theorem pureRead_ok {store : List (Str × Bytes)} :
    ∀ hs : List Str, (∀ h ∈ hs, lookupA store h ≠ none) →
      pureRead store hs = .ok (hs.map (fun h => (lookupA store h).getD [])) := by
  intro hs
  induction hs with
  | nil => intro _; rfl
  | cons h0 t ih
  =>
    intro hl
    simp only [pureRead, List.map_cons]
    cases hc : lookupA store h0 with
    | none => exact absurd hc (hl h0 (by simp))
    | some b =>
      rw [ih (fun h2 hm2 => hl h2 (by simp [hm2]))]
      rfl

theorem download_after_upload {H : Bytes → Str} {S : Nat} {s : Sys}
    (hG : GoodHash H) (hInv : SysInv H s) (hS : 0 < S) {n : Str} (hn : n ≠ [])
    (b : Bytes) : download (uploadOpS H S s n b).1 n = .ok b := by
  have hlook : lookupA ((uploadOpS H S s n b).1).fileMeta (safeName n) =
      some ⟨sigOf H S b, hashesOf H S b⟩ := by
    rw [uploadOpS_fileMeta, lookupA_insertA, effName_of_ne_nil hn, if_pos rfl]
  have hread : pureRead ((uploadOpS H S s n b).1).chunkStore (hashesOf H S b) =
      .ok (chunkSplit S b) :=
    pureRead_map (chunkSplit S b) (fun c hc => upload_stored hG hInv n b c hc)
  rw [download_eq, hlook]
  show (match pureRead ((uploadOpS H S s n b).1).chunkStore (hashesOf H S b) with
        | .error h => DlResult.corrupt h
        | .ok bl => DlResult.ok bl.flatten) = .ok b
  rw [hread]
  show DlResult.ok (chunkSplit S b).flatten = DlResult.ok b
  rw [chunkSplit_flatten hS]


/-! ### Supporting lemmas for the claim theorems -/

theorem uploadOp_eq (H : Bytes → Str) (s : Sys) (n : Str) (b : Bytes) :
    uploadOp H s n b = uploadOpS H CHUNK_SIZE s n b := rfl

theorem chunkAndHash_fsts (H : Bytes → Str) (S : Nat) (b : Bytes) :
    (chunkAndHash H S b).map Prod.fst = hashesOf H S b := by
  simp only [chunkAndHash, hashesOf, List.map_map]
  rfl

theorem bootMetaOf_lookup (ms : List (Str × MRec)) (x : Str) :
    lookupA (bootMetaOf ms) x = findInner ms x := by
  unfold bootMetaOf
  rw [boot_lookup x ms ([], [])]
  cases findInner ms x <;> rfl

theorem findInner_mem_some :
    ∀ (ms : List (Str × MRec)) (k : Str) (m : Manifest),
      (k, MRec.ok m) ∈ ms → endsJson k = true →
      ∃ v, findInner ms m.filename = some v := by
  intro ms
  induction ms with
  | nil => intro k m hm _; exact absurd hm (List.not_mem_nil _)
  | cons p t ih =>
    intro k m hm hj
    obtain ⟨k0, r0⟩ := p
    rw [findInner_cons]
    rcases List.mem_cons.mp hm with h | h
    · have hk0 : k = k0 := congrArg Prod.fst h
      have hr0 : MRec.ok m = r0 := congrArg Prod.snd h
      cases hft : findInner t m.filename with
      | some v => exact ⟨v, rfl⟩
      | none =>
        refine ⟨⟨m.signature, m.chunkHashes⟩, ?_⟩
        show recMeta m.filename k0 r0 = _
        rw [← hr0, recMeta_ok_json (by rw [← hk0]; exact hj), if_pos rfl]
    · obtain ⟨v, hv⟩ := ih k m h hj
      refine ⟨v, ?_⟩
      rw [hv]
      rfl

/-! ### The claim theorems -/

/-- C1 counterexample: the claim fails at the empty filename.  A successful
ingest with empty `originalname` stores the file under the default name
`unnamed` (`server.js:80`), so reconstructing the empty name afterwards
yields 404, not the ingested bytes. -/
theorem roundtrip_empty_name_cex :
    (uploadOp hashFn sysInit [] [7]).2 = ⟨true, unnamedStr, 1⟩ ∧
    download (uploadOp hashFn sysInit [] [7]).1 [] = .notFound := by
  decide

/-- C1 (corrected, "round-trip with last-write-wins"): in every reachable
state, for every nonempty filename `n` and every byte buffer `b`, after a
successful `Ingest(n, b)`, `Reconstruct(n)` returns exactly `b`; in
particular `Ingest(n, b1)` then `Ingest(n, b2)` makes `Reconstruct(n)`
return `b2`.  (The empty filename is excluded: it is stored under the
default name `unnamed`.) -/
theorem roundtrip_last_write_wins (H : Bytes → Str) (hG : GoodHash H)
    (s : Sys) (hs : Reach H s) (n : Str) (hn : n ≠ []) (b b1 b2 : Bytes) :
    download (uploadOp H s n b).1 n = .ok b ∧
    download (uploadOp H (uploadOp H s n b1).1 n b2).1 n = .ok b2 := by
  have hCS : 0 < CHUNK_SIZE := by decide
  constructor
  · exact download_after_upload hG (reach_inv hG s hs) hCS hn b
  · exact download_after_upload hG
      (reach_inv hG _ (Reach.up s n b1 hs)) hCS hn b2

/-- C1 witness: the round-trip and overwrite theorem at a concrete run. -/
theorem roundtrip_last_write_wins_wit :
    download (uploadOp hashFn sysInit ['a'] [3, 4]).1 ['a'] = .ok [3, 4] ∧
    download (uploadOp hashFn
      (uploadOp hashFn sysInit ['a'] [9]).1 ['a'] [3, 4]).1 ['a'] = .ok [3, 4] :=
  roundtrip_last_write_wins hashFn goodHash_hashFn sysInit Reach.init
    ['a'] (by decide) [3, 4] [9] [3, 4]

/-- C2 (confirmed, "idempotence of ingestion"): ingesting the same bytes
twice under the same name records the identical digest sequence and
signature both times, the second call reports `wroteSomething = false`
with the same chunk count, the second call leaves the chunk store
unchanged, and no upload ever rewrites an existing chunk blob. -/
theorem ingest_idempotent (H : Bytes → Str) (s : Sys) (n : Str) (b : Bytes) :
    lookupA ((uploadOp H s n b).1).fileMeta (effName n) =
      some ⟨sigOf H CHUNK_SIZE b, hashesOf H CHUNK_SIZE b⟩ ∧
    lookupA ((uploadOp H (uploadOp H s n b).1 n b).1).fileMeta (effName n) =
      some ⟨sigOf H CHUNK_SIZE b, hashesOf H CHUNK_SIZE b⟩ ∧
    (uploadOp H (uploadOp H s n b).1 n b).2 =
      ⟨false, effName n, (hashesOf H CHUNK_SIZE b).length⟩ ∧
    ((uploadOp H (uploadOp H s n b).1 n b).1).chunkStore =
      ((uploadOp H s n b).1).chunkStore ∧
    (∀ h v, lookupA s.chunkStore h = some v →
      lookupA ((uploadOp H s n b).1).chunkStore h = some v) := by
  have hsig1 : sigOf H CHUNK_SIZE b ∈
      ((uploadOp H s n b).1).fileSignatures := sig_mem_upload H CHUNK_SIZE s n b
  refine ⟨?_, ?_, ?_, ?_, ?_⟩
  · rw [uploadOp_eq, uploadOpS_fileMeta, lookupA_insertA, if_pos rfl]
  · rw [uploadOp_eq, uploadOpS_fileMeta, lookupA_insertA, if_pos rfl]
  · rw [uploadOp_eq H (uploadOp H s n b).1 n b, uploadOpS_old hsig1]
  · rw [uploadOp_eq H (uploadOp H s n b).1 n b, uploadOpS_old hsig1]
  · exact fun h v hv => uploadOpS_storeExt H CHUNK_SIZE s n b h v hv

/-- C2 witness: the idempotence theorem instantiated at a concrete run,
with the no-rewrite conjunct discharged at a blob present beforehand. -/
theorem ingest_idempotent_wit :
    lookupA ((uploadOp hashFn (uploadOp hashFn sysInit ['z'] [5]).1
        ['a'] [1, 2]).1).chunkStore (hashFn [5]) = some [5] ∧
    (uploadOp hashFn
      (uploadOp hashFn (uploadOp hashFn sysInit ['z'] [5]).1 ['a'] [1, 2]).1
      ['a'] [1, 2]).2 = ⟨false, ['a'], 1⟩ :=
  ⟨(ingest_idempotent hashFn (uploadOp hashFn sysInit ['z'] [5]).1
      ['a'] [1, 2]).2.2.2.2 (hashFn [5]) [5] (by decide),
   (ingest_idempotent hashFn (uploadOp hashFn sysInit ['z'] [5]).1
      ['a'] [1, 2]).2.2.1⟩

/-- C3 (confirmed, "crash-recovery equivalence"): from any reachable state,
restarting the process and rerunning the bootstrap leaves the set of listed
filenames and every reconstruction result unchanged; moreover the bootstrap
fold ignores exactly the records that are corrupt or not `.json`-named, and
every parseable `.json` manifest record gets its filename into the rebuilt
index. -/
theorem crash_recovery_equiv (H : Bytes → Str) (hG : GoodHash H) (s : Sys)
    (hs : Reach H s) :
    (∀ x, x ∈ listFilenames (restartS s) ↔ x ∈ listFilenames s) ∧
    (∀ x, download (restartS s) x = download s x) ∧
    (∀ ms : List (Str × MRec),
      bootAccum ms ([], []) =
        bootAccum (ms.filter (fun p => endsJson p.1 && isOkRec p.2)) ([], [])) ∧
    (∀ (ms : List (Str × MRec)) (k : Str) (m : Manifest),
      (k, MRec.ok m) ∈ ms → endsJson k = true →
      ∃ v, lookupA (bootMetaOf ms) m.filename = some v) := by
  have hInv := reach_inv hG s hs
  have hfm : ∀ y, lookupA (restartS s).fileMeta y = lookupA s.fileMeta y := by
    intro y
    rw [restart_lookup]
    exact (hInv.metaBoot y).symm
  refine ⟨?_, ?_, ?_, ?_⟩
  · intro x
    constructor
    · intro hm
      obtain ⟨v, hv⟩ := keys_lookup hm
      rw [hfm x] at hv
      exact lookup_keys hv
    · intro hm
      obtain ⟨v, hv⟩ := keys_lookup hm
      rw [← hfm x] at hv
      exact lookup_keys hv
  · intro x
    exact download_ext hfm rfl x
  · exact fun ms => bootAccum_filter ms ([], [])
  · intro ms k m hm hj
    rw [bootMetaOf_lookup]
    exact findInner_mem_some ms k m hm hj

/-- C3 witness: restart equivalence at a concrete one-upload state. -/
theorem crash_recovery_equiv_wit :
    (['a'] ∈ listFilenames (restartS (uploadOp hashFn sysInit ['a'] [1]).1) ↔
      ['a'] ∈ listFilenames (uploadOp hashFn sysInit ['a'] [1]).1) ∧
    download (restartS (uploadOp hashFn sysInit ['a'] [1]).1) ['a'] =
      download (uploadOp hashFn sysInit ['a'] [1]).1 ['a'] :=
  ⟨(crash_recovery_equiv hashFn goodHash_hashFn _
      (Reach.up sysInit ['a'] [1] Reach.init)).1 ['a'],
   (crash_recovery_equiv hashFn goodHash_hashFn _
      (Reach.up sysInit ['a'] [1] Reach.init)).2.1 ['a']⟩

/-- C4 counterexample: `Reconstruct` sanitizes its argument before the
lookup, so a filename absent from `FileIndex` need not yield `NotFound`:
after ingesting under `b`, the name `a/b` is not a key of `FileIndex`, yet
downloading `a/b` succeeds. -/
theorem reconstruct_notfound_iff_cex :
    download (uploadOp hashFn sysInit ['b'] [1]).1 ['a', '/', 'b'] = .ok [1] ∧
    lookupA ((uploadOp hashFn sysInit ['b'] [1]).1).fileMeta
      ['a', '/', 'b'] = none := by
  decide

/-- C4 (corrected, "reconstruction error behaviour"): in every state,
`Reconstruct(x)` fails with `NotFound` iff the SANITIZED name
`basename(x)` is absent from `FileIndex`; when the entry exists, the result
is `CorruptStore` exactly when some referenced digest has no stored blob
(and then no bytes are returned), and otherwise it is the concatenation of
all referenced blobs in manifest order. -/
theorem reconstruct_error_cases (s : Sys) (x : Str) :
    (download s x = .notFound ↔ lookupA s.fileMeta (safeName x) = none) ∧
    (∀ mt, lookupA s.fileMeta (safeName x) = some mt →
      ((∃ h, h ∈ mt.chunkHashes ∧ lookupA s.chunkStore h = none) ↔
        (∃ h, download s x = .corrupt h))) ∧
    (∀ mt, lookupA s.fileMeta (safeName x) = some mt →
      (∀ h ∈ mt.chunkHashes, lookupA s.chunkStore h ≠ none) →
      download s x = .ok ((mt.chunkHashes.map
        (fun h => (lookupA s.chunkStore h).getD [])).flatten)) := by
  refine ⟨?_, ?_, ?_⟩
  · rw [download_eq]
    cases hl : lookupA s.fileMeta (safeName x) with
    | none => simp
    | some mt =>
      dsimp only
      cases hr : pureRead s.chunkStore mt.chunkHashes with
      | error h => simp
      | ok bl => simp
  · intro mt hl
    rw [download_eq, hl]
    dsimp only
    cases hr : pureRead s.chunkStore mt.chunkHashes with
    | error h =>
      constructor
      · intro _
        exact ⟨h, rfl⟩
      · intro _
        exact (pureRead_error_iff mt.chunkHashes).mpr ⟨h, hr⟩
    | ok bl =>
      constructor
      · intro hex
        obtain ⟨h2, he2⟩ := (pureRead_error_iff mt.chunkHashes).mp hex
        rw [he2] at hr
        exact absurd hr Except.noConfusion
      · intro hex
        obtain ⟨h2, he2⟩ := hex
        exact absurd he2 (by simp)
  · intro mt hl hall
    rw [download_eq, hl]
    dsimp only
    rw [pureRead_ok mt.chunkHashes hall]

/-- C4 witness: a store with a manifest referencing a missing blob fails
with `CorruptStore`, via the error-cases theorem. -/
theorem reconstruct_error_cases_wit :
    ∃ h, download ⟨[(['f'], ⟨['x'], [['h']]⟩)], [], [], []⟩ ['f'] =
      .corrupt h :=
  ((reconstruct_error_cases ⟨[(['f'], ⟨['x'], [['h']]⟩)], [], [], []⟩
      ['f']).2.1 ⟨['x'], [['h']]⟩ (by decide)).mp ⟨['h'], by decide, by decide⟩

/-- C5 (confirmed, "ingest atomicity on chunk-write failure"): if any chunk
write throws, the whole upload aborts with `FileIndex`, `SignatureIndex`
and the manifest store exactly as before; the chunk store keeps every old
blob unchanged and any new blob is one of this upload's digests (tolerated
orphans).  When the upload succeeds and its signature was new, the
signature is recorded and all of its chunk digests have stored blobs —
the signature is only ever added after all chunk writes completed. -/
theorem ingest_atomic_on_failure (H : Bytes → Str) (fl : Str → Bool)
    (s : Sys) (n : Str) (b : Bytes) :
    (∀ s2 : Sys, uploadF H fl s n b = .error s2 →
      s2.fileMeta = s.fileMeta ∧ s2.fileSignatures = s.fileSignatures ∧
      s2.manifestStore = s.manifestStore ∧
      (∀ h v, lookupA s.chunkStore h = some v →
        lookupA s2.chunkStore h = some v) ∧
      (∀ h v, lookupA s2.chunkStore h = some v →
        lookupA s.chunkStore h = some v ∨ h ∈ hashesOf H CHUNK_SIZE b)) ∧
    (∀ (s2 : Sys) (r : UploadResp), uploadF H fl s n b = .ok (s2, r) →
      sigOf H CHUNK_SIZE b ∉ s.fileSignatures →
      sigOf H CHUNK_SIZE b ∈ s2.fileSignatures ∧
      ∀ h ∈ hashesOf H CHUNK_SIZE b, ∃ v, lookupA s2.chunkStore h = some v) := by
  constructor
  · intro s2 herr
    obtain ⟨hsig, hwc, hs2⟩ := uploadFS_error_eq herr
    have hfm : s2.fileMeta = s.fileMeta := by rw [hs2]
    have hfs : s2.fileSignatures = s.fileSignatures := by rw [hs2]
    have hms : s2.manifestStore = s.manifestStore := by rw [hs2]
    refine ⟨hfm, hfs, hms, ?_, ?_⟩
    · exact fun h v hv => wcF_error_mono _ _ _ _ hwc h v hv
    · intro h v hv
      rcases wcF_error_sub _ _ _ _ hwc h v hv with h2 | h2
      · exact Or.inl h2
      · right
        rw [← chunkAndHash_fsts]
        exact h2
  · intro s2 r hok hsig
    have hup := uploadFS_ok_eq hok
    have hs2 : (uploadOpS H CHUNK_SIZE s n b).1 = s2 := by rw [hup]
    constructor
    · rw [← hs2]
      exact sig_mem_upload H CHUNK_SIZE s n b
    · intro h hm
      rw [← hs2, uploadOpS_new hsig]
      obtain ⟨c, hc, hch⟩ := List.mem_map.mp hm
      rw [← hch]
      exact wc_complete (chunkAndHash H CHUNK_SIZE b) s.chunkStore false
        (H c, c) (List.mem_map.mpr ⟨c, hc, rfl⟩)

/-- C5 witness: a run where every write throws aborts with the state
untouched, and a clean run commits the signature. -/
theorem ingest_atomic_on_failure_wit :
    ((uploadOp hashFn sysInit ['z'] [5]).1).manifestStore =
      ((uploadOp hashFn sysInit ['z'] [5]).1).manifestStore ∧
    sigOf hashFn CHUNK_SIZE [1] ∈
      ((uploadOp hashFn sysInit ['a'] [1]).1).fileSignatures :=
  ⟨((ingest_atomic_on_failure hashFn (fun _ => true)
      (uploadOp hashFn sysInit ['z'] [5]).1 ['a'] [1]).1
      (uploadOp hashFn sysInit ['z'] [5]).1 rfl).2.2.1,
   ((ingest_atomic_on_failure hashFn (fun _ => false) sysInit ['a'] [1]).2
      ((uploadOp hashFn sysInit ['a'] [1]).1)
      ((uploadOp hashFn sysInit ['a'] [1]).2) rfl (by decide)).1⟩


/-- C6 (confirmed, "chunking shape and signature"): for chunk size `S > 0`
and a nonempty buffer, the chunker yields `⌈L/S⌉` ordered chunks, all of
length `S` except the last which holds 1..S bytes; the response's
`chunkCount` is the number of chunks and the recorded signature is the
digests joined with `'-'`.  Concretely, with chunk size 10 a fresh 25-byte
buffer gives 3 chunks of lengths 10, 10, 5, signature `h1-h2-h3`, and
response `(newChunksWritten = true, chunkCount = 3)`. -/
theorem chunk_shape_and_signature (S : Nat) (b : Bytes) (hS : 0 < S)
    (hb : b ≠ []) :
    (chunkSplit S b).length = (b.length + S - 1) / S ∧
    (∃ ls l, chunkSplit S b = ls ++ [l] ∧ (∀ c ∈ ls, c.length = S) ∧
      0 < l.length ∧ l.length ≤ S) ∧
    (∀ (H : Bytes → Str) (s : Sys) (n : Str),
      (uploadOpS H S s n b).2.chunkCount = (chunkSplit S b).length ∧
      lookupA ((uploadOpS H S s n b).1).fileMeta (effName n) =
        some ⟨joinDash (hashesOf H S b), hashesOf H S b⟩) ∧
    ((chunkSplit 10 (List.range 25)).map List.length = [10, 10, 5] ∧
      (uploadOpS hashFn 10 sysInit ['d', 'o', 'c'] (List.range 25)).2 =
        ⟨true, ['d', 'o', 'c'], 3⟩ ∧
      sigOf hashFn 10 (List.range 25) =
        joinDash [hashFn ((List.range 25).take 10),
          hashFn (((List.range 25).drop 10).take 10),
          hashFn ((List.range 25).drop 20)]) := by
  refine ⟨chunkSplit_length hS hb,
    chunkSplit_shape_fuel hS b.length b le_rfl hb, ?_, ?_⟩
  · intro H s n
    constructor
    · show (hashesOf H S b).length = _
      simp [hashesOf]
    · rw [uploadOpS_fileMeta, lookupA_insertA, if_pos rfl]
      rfl
  · exact ⟨by decide, by decide, by decide⟩

/-- C6 witness: the shape theorem at chunk size 3 on a 4-byte buffer. -/
theorem chunk_shape_and_signature_wit :
    (chunkSplit 3 [7, 8, 9, 10]).length = (4 + 3 - 1) / 3 :=
  (chunk_shape_and_signature 3 [7, 8, 9, 10] (by decide) (by decide)).1

/-- C7 counterexample: ingesting EMPTY content under name `a` succeeds
(no `InvalidInput`): the response reports zero chunks, and a meta entry,
the empty signature, and a durable manifest are all created. -/
theorem ingest_empty_rejected_cex :
    (uploadOp hashFn sysInit ['a'] []).2 = ⟨false, ['a'], 0⟩ ∧
    lookupA ((uploadOp hashFn sysInit ['a'] []).1).fileMeta ['a'] =
      some ⟨[], []⟩ ∧
    [] ∈ ((uploadOp hashFn sysInit ['a'] []).1).fileSignatures ∧
    lookupA ((uploadOp hashFn sysInit ['a'] []).1).manifestStore
      (['a'] ++ jsonExt) = some (.ok ⟨['a'], [], []⟩) := by
  decide

/-- C7 (corrected, "empty-input rejection"): the code never fails with
`InvalidInput`.  Empty content is accepted silently: the call returns
`chunkCount = 0` and records a zero-chunk meta entry, the empty signature,
and a durable manifest; filenames are always sanitized via `basename`
(with the empty name replaced by `unnamed`), never rejected. -/
theorem ingest_empty_accepted (H : Bytes → Str) (s : Sys) (n : Str) :
    (uploadOp H s n []).2.chunkCount = 0 ∧
    lookupA ((uploadOp H s n []).1).fileMeta (effName n) = some ⟨[], []⟩ ∧
    [] ∈ ((uploadOp H s n []).1).fileSignatures ∧
    lookupA ((uploadOp H s n []).1).manifestStore (effName n ++ jsonExt) =
      some (.ok ⟨effName n, [], []⟩) := by
  refine ⟨rfl, ?_, ?_, ?_⟩
  · rw [uploadOp_eq, uploadOpS_fileMeta, lookupA_insertA, if_pos rfl]
    rfl
  · exact sig_mem_upload H CHUNK_SIZE s n []
  · rw [uploadOp_eq, uploadOpS_manifest, lookupA_insertA, if_pos rfl]
    rfl

/-- C8 (code bug, "configured chunk size"): `CHUNK_SIZE` is `10 * 10`,
i.e. 100 bytes, while its own comment (`// 1 MB`) and the repository
README document 1 MiB = 1,048,576 bytes. -/
theorem chunk_size_constant_bug :
    CHUNK_SIZE = 100 ∧ CHUNK_SIZE ≠ 1024 * 1024 := by
  decide

/-- C9 counterexample: the empty supplied name is not stored under its own
basename (the empty string) but under the substituted default `unnamed`
(`server.js:80`). -/
theorem basename_empty_name_cex :
    lookupA ((uploadOp hashFn sysInit [] [1]).1).fileMeta (safeName []) =
      none ∧
    lookupA ((uploadOp hashFn sysInit [] [1]).1).fileMeta unnamedStr =
      some ⟨sigOf hashFn CHUNK_SIZE [1], hashesOf hashFn CHUNK_SIZE [1]⟩ := by
  decide

/-- C9 (corrected, "filename basename aliasing"): `Reconstruct(f)` behaves
identically to `Reconstruct(basename(f))` for every `f`; `Ingest(f, b)`
stores and lists the file under `basename(f)` for every NONEMPTY `f`
(the empty name is stored under the default `unnamed` instead); and no
key of `FileIndex` in any reachable state contains a path separator. -/
theorem basename_aliasing (H : Bytes → Str) (hG : GoodHash H) :
    (∀ (s : Sys) (f : Str), download s f = download s (safeName f)) ∧
    (∀ (s : Sys) (f : Str) (b : Bytes), f ≠ [] →
      lookupA ((uploadOp H s f b).1).fileMeta (safeName f) =
        some ⟨sigOf H CHUNK_SIZE b, hashesOf H CHUNK_SIZE b⟩ ∧
      safeName f ∈ listFilenames (uploadOp H s f b).1) ∧
    (∀ (s : Sys) (b : Bytes),
      lookupA ((uploadOp H s [] b).1).fileMeta unnamedStr =
        some ⟨sigOf H CHUNK_SIZE b, hashesOf H CHUNK_SIZE b⟩) ∧
    (∀ s : Sys, Reach H s → ∀ x, x ∈ listFilenames s → '/' ∉ x) := by
  refine ⟨?_, ?_, ?_, ?_⟩
  · intro s f
    rw [download_eq, download_eq, safeName_idem]
  · intro s f b hf
    have hl : lookupA ((uploadOp H s f b).1).fileMeta (safeName f) =
        some ⟨sigOf H CHUNK_SIZE b, hashesOf H CHUNK_SIZE b⟩ := by
      rw [uploadOp_eq, uploadOpS_fileMeta, lookupA_insertA,
        effName_of_ne_nil hf, if_pos rfl]
    exact ⟨hl, lookup_keys hl⟩
  · intro s b
    have he : effName ([] : Str) = unnamedStr := by decide
    rw [uploadOp_eq, uploadOpS_fileMeta, he, lookupA_insertA, if_pos rfl]
  · intro s hs x hm
    obtain ⟨v, hv⟩ := keys_lookup hm
    exact (reach_inv hG s hs).metaSlash x v hv

/-- C9 witness: the aliasing theorem at concrete inputs. -/
theorem basename_aliasing_wit :
    download sysInit ['a', '/', 'b'] =
      download sysInit (safeName ['a', '/', 'b']) ∧
    lookupA ((uploadOp hashFn (uploadOp hashFn sysInit ['z'] [5]).1
        ['a'] [1]).1).fileMeta (safeName ['a']) =
      some ⟨sigOf hashFn CHUNK_SIZE [1], hashesOf hashFn CHUNK_SIZE [1]⟩ :=
  ⟨(basename_aliasing hashFn goodHash_hashFn).1 sysInit ['a', '/', 'b'],
   ((basename_aliasing hashFn goodHash_hashFn).2.1
      (uploadOp hashFn sysInit ['z'] [5]).1 ['a'] [1] (by decide)).1⟩

/-- C10 (confirmed, "reconstruct is read-only"): the download handler,
threaded as a state transition through each of its reads, returns the
state unchanged whether it ends in 404, 500 or success. -/
theorem reconstruct_readonly (s : Sys) (x : Str) : (downloadSt s x).1 = s := by
  unfold downloadSt
  cases hl : lookupA s.fileMeta (safeName x) with
  | none => rfl
  | some mt =>
    dsimp only
    cases hr : readLoop s mt.chunkHashes with
    | mk s2 r =>
      have hf := readLoop_fst s mt.chunkHashes
      rw [hr] at hf
      cases r with
      | error h2 => exact hf
      | ok bl => exact hf


example : chunkSplit 10 (List.range 25) =
    [(List.range 25).take 10, ((List.range 25).drop 10).take 10,
     (List.range 25).drop 20] := by decide

example : safeName ['a', '/', 'b'] = ['b'] := by decide

example : effName [] = unnamedStr := by decide

example :
    (uploadOp hashFn sysInit ['a'] [3, 4]).2 =
      ⟨true, ['a'], 1⟩ := by decide

example : download (uploadOp hashFn sysInit ['a'] [3, 4]).1 ['a'] =
    .ok [3, 4] := by decide
